/-
Verification of the dashboard server services of the claude-marketplace
repository.  The Python sources under plugins/dashboard/server are shallowly
embedded as pure Lean functions: each Python dict is modelled as an
insertion-ordered association list, each mutating method as a state-passing
function, and each wall-clock or uuid read as an explicit parameter.
-/
import Mathlib

namespace Marketplace

/-- Scalar JSON values, enough for the metadata payloads the task extractor
moves around (it only tests a value for null and otherwise stores it). -/
inductive JVal where
  | jnull0 : JVal
  | jbool (b : Bool) : JVal
  | jnum (n : Int) : JVal
  | jstr (s : String) : JVal
deriving DecidableEq, Repr

/-- Lookup in an insertion-ordered association list, the model of a read of a
Python dict key. -/
def alistGet {α : Type} (l : List (String × α)) (k : String) : Option α :=
  (l.find? (fun p => p.1 == k)).map (fun p => p.2)

/-- Assignment to a Python dict key: replace the value in place when the key
is present, otherwise append the binding at the end. -/
def alistSet {α : Type} (l : List (String × α)) (k : String) (v : α) :
    List (String × α) :=
  match l with
  | [] => [(k, v)]
  | p :: rest =>
    if p.1 == k then (k, v) :: rest else p :: alistSet rest k v

/-- Removal of a Python dict key (dict.pop with a default: absent keys are
left alone). -/
def alistPop {α : Type} (l : List (String × α)) (k : String) :
    List (String × α) :=
  match l with
  | [] => []
  | p :: rest =>
    if p.1 == k then rest else p :: alistPop rest k

/-- Task record of task_state_extractor.py (dataclass Task).  Metadata values
are held as Option JVal so that a JSON null stored by a create call is
representable. -/
structure Task where
  id : String
  subject : String
  description : String := ""
  status : String := "pending"
  activeForm : String := ""
  blocks : List String := []
  blockedBy : List String := []
  owner : Option String := none
  metadata : List (String × Option JVal) := []
deriving DecidableEq, Repr

/-- Input dict of a TaskCreate/TaskUpdate tool call, with one optional field
per key the extractor reads.  In metadata, an inner none is a JSON null. -/
structure TaskInput where
  taskId : Option String := none
  subject : Option String := none
  description : Option String := none
  status : Option String := none
  activeForm : Option String := none
  owner : Option String := none
  addBlocks : Option (List String) := none
  addBlockedBy : Option (List String) := none
  metadata : Option (List (String × Option JVal)) := none
deriving DecidableEq, Repr

/-- Tool call dict as consumed by process_tool_call (name and input keys,
with the same defaults as dict.get). -/
structure ToolCall where
  name : String := ""
  input : TaskInput := {}
deriving DecidableEq, Repr

/-- Event dict returned by the extractor handlers; the task field stands for
the task.to_dict() payload. -/
structure TaskEvent where
  event : String
  task : Task
deriving DecidableEq, Repr

/-- State of TaskStateExtractor: the tasks dict and the auto-id counter. -/
structure TaskStateExtractor where
  tasks : List (String × Task) := []
  next_id : Nat := 1
deriving DecidableEq, Repr

namespace TaskStateExtractor

/-- Translation of TaskStateExtractor._handle_create.  The new id is always
the stringified counter; the input is consulted only for subject,
description, activeForm and metadata. -/
def handle_create (st : TaskStateExtractor) (input : TaskInput) :
    TaskStateExtractor × TaskEvent :=
  let task_id := toString st.next_id
  let task : Task :=
    { id := task_id
      subject := input.subject.getD ""
      description := input.description.getD ""
      status := "pending"
      activeForm := input.activeForm.getD ""
      metadata := input.metadata.getD [] }
  ({ st with tasks := alistSet st.tasks task_id task
             next_id := st.next_id + 1 },
   { event := "task_created", task := task })

/-- Append each element not already present, the loop bodies of the
addBlocks/addBlockedBy merges. -/
def mergeDeps (cur : List String) (add : List String) : List String :=
  add.foldl (fun acc b => if b ∈ acc then acc else acc ++ [b]) cur

/-- Metadata merge loop: a null value pops the key, any other value is
assigned. -/
def mergeMeta (cur : List (String × Option JVal))
    (upd : List (String × Option JVal)) : List (String × Option JVal) :=
  upd.foldl
    (fun acc kv =>
      match kv.2 with
      | none => alistPop acc kv.1
      | some v => alistSet acc kv.1 (some v))
    cur

/-- Straight-line override block of _handle_update: one conditional
assignment per present input key, then the two dependency merges and the
metadata merge. -/
def applyOverrides (base : Task) (input : TaskInput) : Task :=
  let t1 := match input.subject with
    | some s => { base with subject := s } | none => base
  let t2 := match input.description with
    | some s => { t1 with description := s } | none => t1
  let t3 := match input.status with
    | some s => { t2 with status := s } | none => t2
  let t4 := match input.activeForm with
    | some s => { t3 with activeForm := s } | none => t3
  let t5 := match input.owner with
    | some s => { t4 with owner := some s } | none => t4
  let t6 := match input.addBlocks with
    | some bs => { t5 with blocks := mergeDeps t5.blocks bs } | none => t5
  let t7 := match input.addBlockedBy with
    | some bs => { t6 with blockedBy := mergeDeps t6.blockedBy bs }
    | none => t6
  match input.metadata with
    | some m => { t7 with metadata := mergeMeta t7.metadata m } | none => t7

/-- Translation of TaskStateExtractor._handle_update. -/
def handle_update (st : TaskStateExtractor) (input : TaskInput) :
    TaskStateExtractor × Option TaskEvent :=
  let task_id := input.taskId.getD ""
  if task_id = "" then (st, none)
  else if input.status.getD "" = "deleted" then
    match alistGet st.tasks task_id with
    | some t =>
      ({ st with tasks := alistPop st.tasks task_id },
       some { event := "task_deleted", task := t })
    | none => (st, none)
  else
    -- get-or-create of the placeholder, then retrieval of the task
    let base : Task :=
      match alistGet st.tasks task_id with
      | some t => t
      | none =>
        { id := task_id
          subject := input.subject.getD ("Task " ++ task_id)
          description := input.description.getD "" }
    let t8 := applyOverrides base input
    ({ st with tasks := alistSet st.tasks task_id t8 },
     some { event := "task_updated", task := t8 })

/-- Translation of TaskStateExtractor.process_tool_call: dispatch on the tool
name; TaskList/TaskGet and unknown tools yield no event and no change. -/
def process_tool_call (st : TaskStateExtractor) (tc : ToolCall) :
    TaskStateExtractor × Option TaskEvent :=
  if tc.name = "TaskCreate" then
    let r := handle_create st tc.input
    (r.1, some r.2)
  else if tc.name = "TaskUpdate" then
    handle_update st tc.input
  else
    (st, none)

/-- Translation of TaskStateExtractor.get_task. -/
def get_task (st : TaskStateExtractor) (task_id : String) : Option Task :=
  alistGet st.tasks task_id

end TaskStateExtractor

/- Association-list lemmas shared by several developments below. -/

theorem alistGet_alistSet_self {α : Type} (l : List (String × α)) (k : String)
    (v : α) : alistGet (alistSet l k v) k = some v := by
  induction l with
  | nil => simp [alistSet, alistGet]
  | cons p rest ih =>
    by_cases h : p.1 == k
    · simp [alistSet, h, alistGet]
    · simp only [alistSet, h, if_neg, Bool.false_eq_true, if_false]
      simpa [alistGet, List.find?, h] using ih

theorem alistGet_alistSet_other {α : Type} (l : List (String × α))
    (k k' : String) (v : α) (hne : k ≠ k') :
    alistGet (alistSet l k v) k' = alistGet l k' := by
  induction l with
  | nil =>
    simp [alistSet, alistGet, List.find?,
      show (k == k') = false by simpa using hne]
  | cons p rest ih =>
    by_cases h : p.1 == k
    · have hp : p.1 = k := by simpa using h
      simp [alistSet, h, alistGet, List.find?, hp,
        show (k == k') = false by simpa using hne]
    · simp only [alistSet, h, Bool.false_eq_true, if_false]
      by_cases h2 : p.1 == k'
      · simp [alistGet, List.find?, h2]
      · simp only [alistGet, List.find?, h2] at *
        simpa [alistGet] using ih

theorem alistGet_alistPop_self {α : Type} (l : List (String × α)) (k : String)
    (hnd : (l.map Prod.fst).Nodup) :
    alistGet (alistPop l k) k = none := by
  induction l with
  | nil => simp [alistPop, alistGet]
  | cons p rest ih =>
    simp only [List.map_cons, List.nodup_cons] at hnd
    by_cases h : p.1 == k
    · have hp : p.1 = k := by simpa using h
      subst hp
      simp only [alistPop, beq_self_eq_true, if_true]
      -- the key does not recur in rest, so lookup misses
      have : ∀ q ∈ rest, ¬ (q.1 == p.1) := by
        intro q hq
        simp only [beq_iff_eq]
        intro hqe
        exact hnd.1 (hqe ▸ List.mem_map_of_mem Prod.fst hq)
      simp only [alistGet]
      rw [List.find?_eq_none.mpr (fun q hq => by simpa using this q hq)]
      rfl
    · simp only [alistPop, h, Bool.false_eq_true, if_false]
      simp only [alistGet, List.find?, h]
      exact ih hnd.2

theorem alistGet_alistPop_other {α : Type} (l : List (String × α))
    (k k' : String) (hne : k ≠ k') :
    alistGet (alistPop l k) k' = alistGet l k' := by
  induction l with
  | nil => simp [alistPop]
  | cons p rest ih =>
    by_cases h : p.1 == k
    · have hp : p.1 = k := by simpa using h
      simp [alistPop, h, alistGet, List.find?, hp,
        show (k == k') = false by simpa using hne]
    · simp only [alistPop, h, Bool.false_eq_true, if_false]
      by_cases h2 : p.1 == k'
      · simp [alistGet, List.find?, h2]
      · simp only [alistGet, List.find?, h2]
        simpa [alistGet] using ih

/- Lemmas about the dependency and metadata merges of the task extractor. -/

theorem mergeDeps_cons (cur : List String) (a : String) (rest : List String) :
    TaskStateExtractor.mergeDeps cur (a :: rest) =
      TaskStateExtractor.mergeDeps (if a ∈ cur then cur else cur ++ [a]) rest :=
  rfl

theorem mem_mergeDeps (add : List String) :
    ∀ (cur : List String) (b : String),
      b ∈ TaskStateExtractor.mergeDeps cur add ↔ b ∈ cur ∨ b ∈ add := by
  induction add with
  | nil => intro cur b; simp [TaskStateExtractor.mergeDeps]
  | cons a rest ih =>
    intro cur b
    rw [mergeDeps_cons, ih]
    by_cases hac : a ∈ cur
    · simp only [hac, if_true, List.mem_cons]
      constructor
      · rintro (h | h)
        · exact Or.inl h
        · exact Or.inr (Or.inr h)
      · rintro (h | rfl | h)
        · exact Or.inl h
        · exact Or.inl hac
        · exact Or.inr h
    · simp only [hac, if_false, List.mem_append, List.mem_singleton,
        List.mem_cons]
      tauto

theorem nodup_mergeDeps (add : List String) :
    ∀ cur : List String, cur.Nodup →
      (TaskStateExtractor.mergeDeps cur add).Nodup := by
  induction add with
  | nil => intro cur h; simpa [TaskStateExtractor.mergeDeps] using h
  | cons a rest ih =>
    intro cur h
    rw [mergeDeps_cons]
    apply ih
    by_cases hac : a ∈ cur
    · simpa [hac] using h
    · simp [hac, List.nodup_append, h]

/-- Value attached to the last occurrence of a key in a metadata object, the
last-write-wins view of the merge loop. -/
def metaLast (m : List (String × Option JVal)) (k : String) :
    Option (Option JVal) :=
  (m.reverse.find? (fun p => p.1 == k)).map (fun p => p.2)

theorem metaLast_cons (k₀ : String) (v₀ : Option JVal)
    (rest : List (String × Option JVal)) (k : String) :
    metaLast ((k₀, v₀) :: rest) k =
      match metaLast rest k with
      | some o => some o
      | none => if k₀ == k then some v₀ else none := by
  unfold metaLast
  rw [List.reverse_cons, List.find?_append]
  cases h : rest.reverse.find? (fun p => p.1 == k) with
  | none =>
    by_cases hk : k₀ == k <;> simp [h, List.find?, hk]
  | some p => simp [h]

theorem mem_keys_alistSet {α : Type} (l : List (String × α)) (k : String)
    (v : α) (x : String) :
    x ∈ (alistSet l k v).map Prod.fst ↔ x ∈ l.map Prod.fst ∨ x = k := by
  induction l with
  | nil => simp [alistSet]
  | cons p rest ih =>
    by_cases h : p.1 == k
    · have hp : p.1 = k := by simpa using h
      subst hp
      simp only [alistSet, beq_self_eq_true, if_true, List.map_cons,
        List.mem_cons]
      tauto
    · simp only [alistSet, h, Bool.false_eq_true, if_false, List.map_cons,
        List.mem_cons, ih]
      tauto

theorem keys_nodup_alistSet {α : Type} (l : List (String × α)) (k : String)
    (v : α) (h : (l.map Prod.fst).Nodup) :
    ((alistSet l k v).map Prod.fst).Nodup := by
  induction l with
  | nil => simp [alistSet]
  | cons p rest ih =>
    simp only [List.map_cons, List.nodup_cons] at h
    by_cases hk : p.1 == k
    · have hp : p.1 = k := by simpa using hk
      subst hp
      simp only [alistSet, beq_self_eq_true, if_true, List.map_cons,
        List.nodup_cons]
      exact h
    · simp only [alistSet, hk, Bool.false_eq_true, if_false, List.map_cons,
        List.nodup_cons]
      refine ⟨?_, ih h.2⟩
      rw [mem_keys_alistSet]
      rintro (hm | rfl)
      · exact h.1 hm
      · simp at hk

theorem alistPop_sublist {α : Type} (l : List (String × α)) (k : String) :
    (alistPop l k).Sublist l := by
  induction l with
  | nil => simp [alistPop]
  | cons p rest ih =>
    by_cases h : p.1 == k
    · simp only [alistPop, h, if_true]
      exact List.sublist_cons_self p rest
    · simp only [alistPop, h, Bool.false_eq_true, if_false]
      exact ih.cons₂ p

theorem keys_nodup_alistPop {α : Type} (l : List (String × α)) (k : String)
    (h : (l.map Prod.fst).Nodup) : ((alistPop l k).map Prod.fst).Nodup :=
  ((alistPop_sublist l k).map Prod.fst).nodup h

theorem alistGet_mergeMeta (m : List (String × Option JVal)) :
    ∀ acc : List (String × Option JVal), (acc.map Prod.fst).Nodup →
      ∀ k, alistGet (TaskStateExtractor.mergeMeta acc m) k =
        match metaLast m k with
        | some (some v) => some (some v)
        | some none => none
        | none => alistGet acc k := by
  induction m with
  | nil => intro acc _ k; simp [TaskStateExtractor.mergeMeta, metaLast]
  | cons kv rest ih =>
    intro acc hacc k
    obtain ⟨k₀, v₀⟩ := kv
    rw [metaLast_cons]
    cases v₀ with
    | none =>
      have hstep : TaskStateExtractor.mergeMeta acc ((k₀, none) :: rest) =
          TaskStateExtractor.mergeMeta (alistPop acc k₀) rest := rfl
      rw [hstep, ih _ (keys_nodup_alistPop acc k₀ hacc) k]
      cases hml : metaLast rest k with
      | some o => cases o <;> rfl
      | none =>
        by_cases hk : k₀ == k
        · have hke : k₀ = k := by simpa using hk
          subst hke
          simp [alistGet_alistPop_self acc k₀ hacc]
        · have hne : k₀ ≠ k := by simpa using hk
          simp [hk, alistGet_alistPop_other acc k₀ k hne]
    | some v =>
      have hstep : TaskStateExtractor.mergeMeta acc ((k₀, some v) :: rest) =
          TaskStateExtractor.mergeMeta (alistSet acc k₀ (some v)) rest := rfl
      rw [hstep, ih _ (keys_nodup_alistSet acc k₀ (some v) hacc) k]
      cases hml : metaLast rest k with
      | some o => cases o <;> rfl
      | none =>
        by_cases hk : k₀ == k
        · have hke : k₀ = k := by simpa using hk
          subst hke
          simp [alistGet_alistSet_self]
        · have hne : k₀ ≠ k := by simpa using hk
          simp [hk, alistGet_alistSet_other acc k₀ k (some v) hne]

/-- Closed form of the override chain: every field is overridden exactly once
when its input key is present. -/
theorem applyOverrides_eq (b : Task) (i : TaskInput) :
    TaskStateExtractor.applyOverrides b i =
      { id := b.id
        subject := i.subject.getD b.subject
        description := i.description.getD b.description
        status := i.status.getD b.status
        activeForm := i.activeForm.getD b.activeForm
        owner := (i.owner.map some).getD b.owner
        blocks := match i.addBlocks with
          | some bs => TaskStateExtractor.mergeDeps b.blocks bs
          | none => b.blocks
        blockedBy := match i.addBlockedBy with
          | some bs => TaskStateExtractor.mergeDeps b.blockedBy bs
          | none => b.blockedBy
        metadata := match i.metadata with
          | some m => TaskStateExtractor.mergeMeta b.metadata m
          | none => b.metadata } := by
  obtain ⟨tid, subj, desc, stat, act, own, ab, abb, md⟩ := i
  cases subj <;> cases desc <;> cases stat <;> cases act <;> cases own <;>
    cases ab <;> cases abb <;> cases md <;> rfl

/-- C4 (amended): every TaskCreate processed by process_tool_call creates a
task whose id is the stringified auto counter — any id supplied in the input
is ignored — with status "pending"; a task_created event carrying that task
is returned, the counter advances by one, and the task is retrievable. -/
theorem taskCreate_assigns_sequential_id (st : TaskStateExtractor)
    (tc : ToolCall) (h : tc.name = "TaskCreate") :
    ∃ ev : TaskEvent,
      (TaskStateExtractor.process_tool_call st tc).2 = some ev ∧
      ev.event = "task_created" ∧
      ev.task.id = toString st.next_id ∧
      ev.task.status = "pending" ∧
      (TaskStateExtractor.process_tool_call st tc).1.next_id =
        st.next_id + 1 ∧
      TaskStateExtractor.get_task
        (TaskStateExtractor.process_tool_call st tc).1
        (toString st.next_id) = some ev.task := by
  refine ⟨{ event := "task_created"
            task := { id := toString st.next_id
                      subject := tc.input.subject.getD ""
                      description := tc.input.description.getD ""
                      status := "pending"
                      activeForm := tc.input.activeForm.getD ""
                      metadata := tc.input.metadata.getD [] } },
    ?_, rfl, rfl, rfl, ?_, ?_⟩
  · simp [TaskStateExtractor.process_tool_call, h,
      TaskStateExtractor.handle_create]
  · simp [TaskStateExtractor.process_tool_call, h,
      TaskStateExtractor.handle_create]
  · simp [TaskStateExtractor.process_tool_call, h,
      TaskStateExtractor.handle_create, TaskStateExtractor.get_task,
      alistGet_alistSet_self]

/-- Witness for the amended C4 theorem at the empty extractor. -/
theorem taskCreate_assigns_sequential_id_witness :
    ({ name := "TaskCreate" } : ToolCall).name = "TaskCreate" ∧
    ∃ ev : TaskEvent,
      (TaskStateExtractor.process_tool_call {} { name := "TaskCreate" }).2 =
        some ev ∧
      ev.event = "task_created" ∧
      ev.task.id = toString ({} : TaskStateExtractor).next_id ∧
      ev.task.status = "pending" ∧
      (TaskStateExtractor.process_tool_call {}
        { name := "TaskCreate" }).1.next_id =
        ({} : TaskStateExtractor).next_id + 1 ∧
      TaskStateExtractor.get_task
        (TaskStateExtractor.process_tool_call {} { name := "TaskCreate" }).1
        (toString ({} : TaskStateExtractor).next_id) = some ev.task :=
  ⟨rfl, taskCreate_assigns_sequential_id {} { name := "TaskCreate" } rfl⟩

/-- C4 counterexample: a TaskCreate whose input carries an explicit task id
does not keep it — the created task is given the counter id "1", not the
supplied "42". -/
theorem taskCreate_given_id_not_kept :
    ((TaskStateExtractor.process_tool_call {}
        { name := "TaskCreate"
          input := { taskId := some "42" } }).2.map
      (fun ev => ev.task.id)) = some "1" ∧ ("1" : String) ≠ "42" :=
  ⟨rfl, by decide⟩

/-- C10: a TaskUpdate whose input has no taskId key (or an empty taskId)
returns no event and leaves the extractor state unchanged. -/
theorem taskUpdate_missing_id_noop (st : TaskStateExtractor) (tc : ToolCall)
    (hname : tc.name = "TaskUpdate")
    (hid : tc.input.taskId = none ∨ tc.input.taskId = some "") :
    TaskStateExtractor.process_tool_call st tc = (st, none) := by
  have hgd : tc.input.taskId.getD "" = "" := by
    rcases hid with h | h <;> simp [h]
  simp only [TaskStateExtractor.process_tool_call, hname]
  rw [if_neg (by decide : ¬ ("TaskUpdate" : String) = "TaskCreate"),
    if_pos trivial]
  simp [TaskStateExtractor.handle_update, hgd]

/-- Witness for the C10 theorem at the empty extractor. -/
theorem taskUpdate_missing_id_noop_witness :
    ({ name := "TaskUpdate" } : ToolCall).name = "TaskUpdate" ∧
    (({ name := "TaskUpdate" } : ToolCall).input.taskId = none ∨
      ({ name := "TaskUpdate" } : ToolCall).input.taskId = some "") ∧
    TaskStateExtractor.process_tool_call {} { name := "TaskUpdate" } =
      ({}, none) :=
  ⟨rfl, Or.inl rfl,
    taskUpdate_missing_id_noop {} { name := "TaskUpdate" } rfl (Or.inl rfl)⟩

/-- Placeholder task synthesized by _handle_update when the id is unknown. -/
def placeholderTask (tid : String) (i : TaskInput) : Task :=
  { id := tid
    subject := i.subject.getD ("Task " ++ tid)
    description := i.description.getD "" }

/-- Final task produced by _handle_update on an unknown id: the override
chain applied to the synthesized placeholder. -/
def updatedTask (tid : String) (i : TaskInput) : Task :=
  TaskStateExtractor.applyOverrides (placeholderTask tid i) i

/-- C5: a TaskUpdate for a never-created non-empty task id whose status is
not "deleted" returns a task_updated event, and the task then exists with
the input fields applied, dependency lists union-merged without duplicates,
and metadata merged with null values deleting keys. -/
theorem taskUpdate_unknown_id_tolerated (st : TaskStateExtractor)
    (tc : ToolCall) (tid : String)
    (hname : tc.name = "TaskUpdate")
    (htid : tc.input.taskId = some tid)
    (hne : tid ≠ "")
    (hstat : tc.input.status ≠ some "deleted")
    (hunk : alistGet st.tasks tid = none) :
    ∃ T : Task,
      (TaskStateExtractor.process_tool_call st tc).2 =
        some { event := "task_updated", task := T } ∧
      TaskStateExtractor.get_task
        (TaskStateExtractor.process_tool_call st tc).1 tid = some T ∧
      T.id = tid ∧
      T.subject = tc.input.subject.getD ("Task " ++ tid) ∧
      T.description = tc.input.description.getD "" ∧
      T.status = tc.input.status.getD "pending" ∧
      T.activeForm = tc.input.activeForm.getD "" ∧
      T.owner = tc.input.owner ∧
      T.blocks.Nodup ∧
      (∀ b, b ∈ T.blocks ↔ b ∈ tc.input.addBlocks.getD []) ∧
      T.blockedBy.Nodup ∧
      (∀ b, b ∈ T.blockedBy ↔ b ∈ tc.input.addBlockedBy.getD []) ∧
      (∀ k, alistGet T.metadata k =
        match metaLast (tc.input.metadata.getD []) k with
        | some (some v) => some (some v)
        | _ => none) := by
  have hstat' : ¬ (tc.input.status.getD "" = "deleted") := by
    cases h : tc.input.status with
    | none => simp
    | some s =>
      simp only [Option.getD_some]
      exact fun hs => hstat (by rw [h, hs])
  have hproc : TaskStateExtractor.process_tool_call st tc =
      TaskStateExtractor.handle_update st tc.input := by
    simp only [TaskStateExtractor.process_tool_call, hname]
    rw [if_neg (by decide : ¬ ("TaskUpdate" : String) = "TaskCreate"),
      if_pos trivial]
  have hupd : TaskStateExtractor.handle_update st tc.input =
      ({ st with tasks := alistSet st.tasks tid (updatedTask tid tc.input) },
       some { event := "task_updated", task := updatedTask tid tc.input }) := by
    simp [TaskStateExtractor.handle_update, htid, hne, hstat', hunk,
      updatedTask, placeholderTask]
  refine ⟨updatedTask tid tc.input,
    ?_, ?_, ?_, ?_, ?_, ?_, ?_, ?_, ?_, ?_, ?_, ?_, ?_⟩
  · rw [hproc, hupd]
  · rw [hproc, hupd]
    simp [TaskStateExtractor.get_task, alistGet_alistSet_self]
  · simp [updatedTask, applyOverrides_eq, placeholderTask]
  · simp only [updatedTask, applyOverrides_eq, placeholderTask]
    cases tc.input.subject <;> simp
  · simp only [updatedTask, applyOverrides_eq, placeholderTask]
    cases tc.input.description <;> simp
  · simp [updatedTask, applyOverrides_eq, placeholderTask]
  · simp [updatedTask, applyOverrides_eq, placeholderTask]
  · simp only [updatedTask, applyOverrides_eq, placeholderTask]
    cases tc.input.owner <;> simp
  · simp only [updatedTask, applyOverrides_eq, placeholderTask]
    cases h : tc.input.addBlocks with
    | none => simp
    | some bs =>
      simpa using nodup_mergeDeps bs [] List.nodup_nil
  · intro b
    simp only [updatedTask, applyOverrides_eq, placeholderTask]
    cases h : tc.input.addBlocks with
    | none => simp
    | some bs => simp [mem_mergeDeps]
  · simp only [updatedTask, applyOverrides_eq, placeholderTask]
    cases h : tc.input.addBlockedBy with
    | none => simp
    | some bs =>
      simpa using nodup_mergeDeps bs [] List.nodup_nil
  · intro b
    simp only [updatedTask, applyOverrides_eq, placeholderTask]
    cases h : tc.input.addBlockedBy with
    | none => simp
    | some bs => simp [mem_mergeDeps]
  · intro k
    simp only [updatedTask, applyOverrides_eq, placeholderTask]
    cases h : tc.input.metadata with
    | none => simp [alistGet, metaLast]
    | some m =>
      simp only [Option.getD_some]
      rw [alistGet_mergeMeta m [] (by simp) k]
      cases metaLast m k with
      | none => simp [alistGet]
      | some o => cases o <;> rfl

/-- Concrete TaskUpdate call for an id never created. -/
def w5tc : ToolCall :=
  { name := "TaskUpdate"
    input := { taskId := some "7"
               status := some "in_progress"
               addBlocks := some ["1", "1", "2"]
               metadata := some [("a", some (JVal.jstr "x")), ("b", none)] } }

/-- Witness for the C5 theorem at the empty extractor and the call w5tc. -/
theorem taskUpdate_unknown_id_tolerated_witness :
    w5tc.name = "TaskUpdate" ∧
    w5tc.input.taskId = some "7" ∧
    ("7" : String) ≠ "" ∧
    w5tc.input.status ≠ some "deleted" ∧
    alistGet ({} : TaskStateExtractor).tasks "7" = none ∧
    ∃ T : Task,
      (TaskStateExtractor.process_tool_call {} w5tc).2 =
        some { event := "task_updated", task := T } ∧
      TaskStateExtractor.get_task
        (TaskStateExtractor.process_tool_call {} w5tc).1 "7" = some T ∧
      T.id = "7" ∧
      T.subject = w5tc.input.subject.getD ("Task " ++ "7") ∧
      T.description = w5tc.input.description.getD "" ∧
      T.status = w5tc.input.status.getD "pending" ∧
      T.activeForm = w5tc.input.activeForm.getD "" ∧
      T.owner = w5tc.input.owner ∧
      T.blocks.Nodup ∧
      (∀ b, b ∈ T.blocks ↔ b ∈ w5tc.input.addBlocks.getD []) ∧
      T.blockedBy.Nodup ∧
      (∀ b, b ∈ T.blockedBy ↔ b ∈ w5tc.input.addBlockedBy.getD []) ∧
      (∀ k, alistGet T.metadata k =
        match metaLast (w5tc.input.metadata.getD []) k with
        | some (some v) => some (some v)
        | _ => none) :=
  ⟨rfl, rfl, by decide, by decide, rfl,
    taskUpdate_unknown_id_tolerated {} w5tc "7" rfl rfl (by decide)
      (by decide) rfl⟩

/- Embedding of event_store.py. -/

/-- ConversationEvent of models.py, with datetimes as abstract ticks and the
EventType enum as its string value. -/
structure ConversationEvent where
  id : String
  timestamp : Nat
  changeset_id : String
  event_type : String
  domain : Option String := none
  agent_id : Option String := none
  skill_id : Option String := none
  content : List (String × JVal) := []
deriving DecidableEq, Repr

/-- State of EventStore: the master list and the three secondary indices,
each a defaultdict(list) modelled as an association list whose absent keys
read as []. -/
structure EventStore where
  max_events : Nat := 10000
  events : List ConversationEvent := []
  events_by_changeset : List (String × List ConversationEvent) := []
  events_by_agent : List (String × List ConversationEvent) := []
  events_by_skill : List (String × List ConversationEvent) := []
deriving DecidableEq, Repr

namespace EventStore

/-- Read of a defaultdict(list) bucket. -/
def bucketGet (d : List (String × List ConversationEvent)) (k : String) :
    List ConversationEvent :=
  (alistGet d k).getD []

/-- Append to a defaultdict(list) bucket. -/
def bucketAppend (d : List (String × List ConversationEvent)) (k : String)
    (e : ConversationEvent) : List (String × List ConversationEvent) :=
  alistSet d k (bucketGet d k ++ [e])

/-- Guarded list.remove on a bucket: a no-op when the event is absent. -/
def bucketErase (d : List (String × List ConversationEvent)) (k : String)
    (e : ConversationEvent) : List (String × List ConversationEvent) :=
  alistSet d k ((bucketGet d k).erase e)

/-- Index key of an event in the changeset index (always present). -/
def changesetKey (e : ConversationEvent) : Option String :=
  some e.changeset_id

/-- Index key in the agent index; Python's truthiness test on agent_id skips
both None and the empty string. -/
def agentKey (e : ConversationEvent) : Option String :=
  match e.agent_id with
  | some s => if s = "" then none else some s
  | none => none

/-- Index key in the skill index, with the same truthiness test. -/
def skillKey (e : ConversationEvent) : Option String :=
  match e.skill_id with
  | some s => if s = "" then none else some s
  | none => none

/-- Conditional append into one index, as the guarded appends of
add_event. -/
def indexAppend (key : ConversationEvent → Option String)
    (d : List (String × List ConversationEvent)) (e : ConversationEvent) :
    List (String × List ConversationEvent) :=
  match key e with
  | some k => bucketAppend d k e
  | none => d

/-- Cleanup loop of add_event over the trimmed-away events. -/
def indexEraseAll (key : ConversationEvent → Option String)
    (d : List (String × List ConversationEvent))
    (rm : List ConversationEvent) : List (String × List ConversationEvent) :=
  rm.foldl
    (fun d ev =>
      match key ev with
      | some k => bucketErase d k ev
      | none => d) d

/-- Translation of EventStore.add_event: append to master and applicable
indices, then trim the oldest excess when the master exceeds the ceiling.
Python's events[-max_events:] slice keeps the whole list when the ceiling is
zero, which the kept computation mirrors. -/
def add_event (s : EventStore) (e : ConversationEvent) : EventStore :=
  let events := s.events ++ [e]
  let byC := indexAppend changesetKey s.events_by_changeset e
  let byA := indexAppend agentKey s.events_by_agent e
  let byS := indexAppend skillKey s.events_by_skill e
  if s.max_events < events.length then
    let n := events.length - s.max_events
    let to_remove := events.take n
    let kept := if s.max_events = 0 then events else events.drop n
    { s with events := kept
             events_by_changeset := indexEraseAll changesetKey byC to_remove
             events_by_agent := indexEraseAll agentKey byA to_remove
             events_by_skill := indexEraseAll skillKey byS to_remove }
  else
    { s with events := events
             events_by_changeset := byC
             events_by_agent := byA
             events_by_skill := byS }

/-- Fresh store with a given ceiling, the constructor state. -/
def init (max : Nat) : EventStore := { max_events := max }

/-- Exact-filter shape of one index relative to the master list. -/
def IndexWf (key : ConversationEvent → Option String)
    (d : List (String × List ConversationEvent))
    (l : List ConversationEvent) : Prop :=
  ∀ k, bucketGet d k = l.filter (fun x => key x == some k)

/-- All three indices are the key-filters of the master list. -/
def Wf (s : EventStore) : Prop :=
  IndexWf changesetKey s.events_by_changeset s.events ∧
  IndexWf agentKey s.events_by_agent s.events ∧
  IndexWf skillKey s.events_by_skill s.events

end EventStore

namespace EventStore

theorem bucketGet_bucketAppend_self (d : List (String × List ConversationEvent))
    (k : String) (e : ConversationEvent) :
    bucketGet (bucketAppend d k e) k = bucketGet d k ++ [e] := by
  simp [bucketGet, bucketAppend, alistGet_alistSet_self]

theorem bucketGet_bucketAppend_other
    (d : List (String × List ConversationEvent)) (k k' : String)
    (e : ConversationEvent) (h : k ≠ k') :
    bucketGet (bucketAppend d k e) k' = bucketGet d k' := by
  simp [bucketGet, bucketAppend, alistGet_alistSet_other _ _ _ _ h]

theorem bucketGet_bucketErase_self (d : List (String × List ConversationEvent))
    (k : String) (e : ConversationEvent) :
    bucketGet (bucketErase d k e) k = (bucketGet d k).erase e := by
  simp [bucketGet, bucketErase, alistGet_alistSet_self]

theorem bucketGet_bucketErase_other
    (d : List (String × List ConversationEvent)) (k k' : String)
    (e : ConversationEvent) (h : k ≠ k') :
    bucketGet (bucketErase d k e) k' = bucketGet d k' := by
  simp [bucketGet, bucketErase, alistGet_alistSet_other _ _ _ _ h]

theorem indexAppend_wf (key : ConversationEvent → Option String)
    (d : List (String × List ConversationEvent)) (e : ConversationEvent)
    (l : List ConversationEvent) (h : IndexWf key d l) :
    IndexWf key (indexAppend key d e) (l ++ [e]) := by
  intro k
  rw [List.filter_append]
  cases hk : key e with
  | none =>
    simp [indexAppend, hk, h k, List.filter_singleton]
  | some k₀ =>
    by_cases hkk : k₀ = k
    · subst hkk
      simp [indexAppend, hk, bucketGet_bucketAppend_self, h k₀,
        List.filter_singleton]
    · simp [indexAppend, hk, bucketGet_bucketAppend_other d k₀ k e hkk, h k,
        List.filter_singleton, hkk]

theorem indexEraseAll_wf (key : ConversationEvent → Option String)
    (rm : List ConversationEvent) :
    ∀ (d : List (String × List ConversationEvent))
      (keep : List ConversationEvent), IndexWf key d (rm ++ keep) →
      IndexWf key (indexEraseAll key d rm) keep := by
  induction rm with
  | nil => intro d keep h; simpa [indexEraseAll] using h
  | cons ev rm' ih =>
    intro d keep h
    have hstep : indexEraseAll key d (ev :: rm') =
        indexEraseAll key
          (match key ev with
           | some k => bucketErase d k ev
           | none => d) rm' := rfl
    rw [hstep]
    apply ih
    intro k
    cases hk : key ev with
    | none =>
      simp only [hk]
      have hh := h k
      rw [List.cons_append, List.filter_cons] at hh
      simpa [hk] using hh
    | some k₀ =>
      simp only [hk]
      by_cases hkk : k₀ = k
      · subst hkk
        rw [bucketGet_bucketErase_self, h k₀, List.cons_append,
          List.filter_cons]
        simp [hk]
      · rw [bucketGet_bucketErase_other d k₀ k ev hkk, h k,
          List.cons_append, List.filter_cons]
        simp [hk, hkk]

/-- With a positive ceiling, add_event preserves the exact-filter shape of
every index. -/
theorem add_event_wf (s : EventStore) (e : ConversationEvent)
    (hmax : 1 ≤ s.max_events) (h : Wf s) : Wf (add_event s e) := by
  obtain ⟨hC, hA, hS⟩ := h
  have hC' := indexAppend_wf changesetKey s.events_by_changeset e s.events hC
  have hA' := indexAppend_wf agentKey s.events_by_agent e s.events hA
  have hS' := indexAppend_wf skillKey s.events_by_skill e s.events hS
  by_cases hlen : s.max_events < (s.events ++ [e]).length
  · have hz : ¬ s.max_events = 0 := by omega
    have hsplit : s.events ++ [e] =
        (s.events ++ [e]).take ((s.events ++ [e]).length - s.max_events) ++
        (s.events ++ [e]).drop ((s.events ++ [e]).length - s.max_events) :=
      (List.take_append_drop _ _).symm
    refine ⟨?_, ?_, ?_⟩ <;>
      simp only [add_event, hlen, if_true, hz, if_false, Bool.false_eq_true]
    · exact indexEraseAll_wf changesetKey _ _ _ (hsplit ▸ hC')
    · exact indexEraseAll_wf agentKey _ _ _ (hsplit ▸ hA')
    · exact indexEraseAll_wf skillKey _ _ _ (hsplit ▸ hS')
  · refine ⟨?_, ?_, ?_⟩ <;>
      simp only [add_event, hlen, if_false, Bool.false_eq_true]
    · exact hC'
    · exact hA'
    · exact hS'

theorem add_event_max (s : EventStore) (e : ConversationEvent) :
    (add_event s e).max_events = s.max_events := by
  simp only [add_event]
  split <;> rfl

theorem add_event_length (s : EventStore) (e : ConversationEvent)
    (hmax : 1 ≤ s.max_events) :
    (add_event s e).events.length = min (s.events.length + 1) s.max_events := by
  have hz : ¬ s.max_events = 0 := by omega
  simp only [add_event]
  split <;>
    rename_i hlen <;>
    simp only [List.length_append, List.length_singleton] at hlen <;>
    dsimp only <;>
    simp only [hz, if_false, List.length_drop, List.length_append,
      List.length_singleton] <;>
    omega

theorem add_event_events (s : EventStore) (e : ConversationEvent)
    (hmax : 1 ≤ s.max_events) :
    (add_event s e).events =
      (s.events ++ [e]).drop (s.events.length + 1 - s.max_events) := by
  have hz : ¬ s.max_events = 0 := by omega
  simp only [add_event]
  split
  · dsimp only
    simp only [hz, if_false, List.length_append, List.length_singleton]
  · rename_i hlen
    simp only [List.length_append, List.length_singleton] at hlen
    dsimp only
    have h0 : s.events.length + 1 - s.max_events = 0 := by omega
    rw [h0, List.drop_zero]

theorem foldl_add_event_events (L : List ConversationEvent) :
    ∀ s : EventStore, 1 ≤ s.max_events → s.events.length ≤ s.max_events →
      (L.foldl add_event s).events =
        (s.events ++ L).drop (s.events.length + L.length - s.max_events) := by
  induction L with
  | nil =>
    intro s _ hle
    have h0 : s.events.length - s.max_events = 0 := by omega
    simp [h0]
  | cons e L' ih =>
    intro s hmax hle
    have h1 : (add_event s e).max_events = s.max_events := add_event_max s e
    have h2 : (add_event s e).events.length =
        min (s.events.length + 1) s.max_events := add_event_length s e hmax
    have h3 := ih (add_event s e) (by omega) (by omega)
    rw [List.foldl_cons, h3, h1, h2, add_event_events s e hmax]
    have hd0 : s.events.length + 1 - s.max_events ≤
        (s.events ++ [e]).length := by
      simp only [List.length_append, List.length_singleton]; omega
    rw [← List.drop_append_of_le_length hd0, List.drop_drop]
    have hXL : (s.events ++ [e]) ++ L' = s.events ++ e :: L' := by simp
    rw [hXL]
    congr 1
    simp only [List.length_cons]
    omega

theorem foldl_add_event_length (L : List ConversationEvent) :
    ∀ s : EventStore, 1 ≤ s.max_events → s.events.length ≤ s.max_events →
      (L.foldl add_event s).events.length =
        min (s.events.length + L.length) s.max_events := by
  induction L with
  | nil => intro s _ hle; simp; omega
  | cons e L' ih =>
    intro s hmax hle
    have h1 : (add_event s e).max_events = s.max_events := add_event_max s e
    have h2 : (add_event s e).events.length =
        min (s.events.length + 1) s.max_events := add_event_length s e hmax
    have h3 := ih (add_event s e) (by omega) (by omega)
    simp only [List.foldl_cons, h3, h1, h2, List.length_cons]
    omega

/-- Subset reading of the invariant: every indexed event is in the master
list. -/
theorem wf_subset (s : EventStore) (h : Wf s) :
    (∀ k e, e ∈ bucketGet s.events_by_changeset k → e ∈ s.events) ∧
    (∀ k e, e ∈ bucketGet s.events_by_agent k → e ∈ s.events) ∧
    (∀ k e, e ∈ bucketGet s.events_by_skill k → e ∈ s.events) := by
  obtain ⟨hC, hA, hS⟩ := h
  refine ⟨?_, ?_, ?_⟩ <;> intro k e he
  · exact List.mem_of_mem_filter (hC k ▸ he)
  · exact List.mem_of_mem_filter (hA k ▸ he)
  · exact List.mem_of_mem_filter (hS k ▸ he)

theorem foldl_add_event_wf (L : List ConversationEvent) :
    ∀ s : EventStore, 1 ≤ s.max_events → Wf s → Wf (L.foldl add_event s) := by
  induction L with
  | nil => intro s _ h; simpa using h
  | cons e L' ih =>
    intro s hmax h
    simpa using ih (add_event s e) ((add_event_max s e).symm ▸ hmax)
      (add_event_wf s e hmax h)

end EventStore

/-- Fresh stores satisfy the index invariant. -/
theorem eventStore_init_wf (max : Nat) : EventStore.Wf (EventStore.init max) :=
  ⟨fun _ => rfl, fun _ => rfl, fun _ => rfl⟩

/-- C6 counterexample: with ceiling max_events = 0 and K = 1, one insert
leaves 1 event in the master list, not 0 — Python's events[-0:] slice keeps
the whole list, so a zero ceiling never trims. -/
theorem eventStore_zero_ceiling_not_trimmed :
    (EventStore.add_event (EventStore.init 0)
      { id := "e1", timestamp := 0, changeset_id := "c",
        event_type := "tool_called", domain := some "d" }).events.length = 1 ∧
    (1 : Nat) ≠ 0 :=
  ⟨rfl, by decide⟩

/-- C6 (amended): with a positive ceiling, inserting max + K events (K ≥ 1)
into a fresh store leaves exactly max events in the master list, and those
survivors are precisely the most recent max of the inserted sequence — the
list L with its oldest K events trimmed, in order; moreover after every
insert along the way each secondary index holds only events present in the
master list. -/
theorem eventStore_bound_and_index_subset (max K : Nat)
    (hmax : 1 ≤ max) (hK : 1 ≤ K) (L : List ConversationEvent)
    (hlen : L.length = max + K) :
    (L.foldl EventStore.add_event (EventStore.init max)).events.length =
      max ∧
    (L.foldl EventStore.add_event (EventStore.init max)).events =
      L.drop K ∧
    ∀ L₁ L₂ : List ConversationEvent, L = L₁ ++ L₂ →
      (∀ k e, e ∈ EventStore.bucketGet
          (L₁.foldl EventStore.add_event
            (EventStore.init max)).events_by_changeset k →
        e ∈ (L₁.foldl EventStore.add_event (EventStore.init max)).events) ∧
      (∀ k e, e ∈ EventStore.bucketGet
          (L₁.foldl EventStore.add_event
            (EventStore.init max)).events_by_agent k →
        e ∈ (L₁.foldl EventStore.add_event (EventStore.init max)).events) ∧
      (∀ k e, e ∈ EventStore.bucketGet
          (L₁.foldl EventStore.add_event
            (EventStore.init max)).events_by_skill k →
        e ∈ (L₁.foldl EventStore.add_event (EventStore.init max)).events) := by
  refine ⟨?_, ?_, ?_⟩
  · have h := EventStore.foldl_add_event_length L (EventStore.init max)
      hmax (by simp [EventStore.init])
    simp only [EventStore.init] at h ⊢
    rw [h, hlen]
    simp only [List.length_nil]
    omega
  · have h := EventStore.foldl_add_event_events L (EventStore.init max)
      hmax (by simp [EventStore.init])
    simp only [EventStore.init] at h ⊢
    rw [h, List.nil_append]
    simp only [List.length_nil, Nat.zero_add]
    rw [hlen]
    congr 1
    omega
  · intro L₁ L₂ _
    exact EventStore.wf_subset _
      (EventStore.foldl_add_event_wf L₁ (EventStore.init max) hmax
        (eventStore_init_wf max))

/- Embedding of sse.py (SSEManager.broadcast and the client registry). -/

/-- Capacity of each per-client queue (queue.Queue(maxsize=100)). -/
def sseCapacity : Nat := 100

/-- Envelope built by SSEManager.broadcast: {type, data, timestamp}. -/
structure SSEMessage where
  type : String
  data : List (String × JVal)
  timestamp : Nat
deriving DecidableEq, Repr

/-- State of SSEManager: the ordered client list (queues identified by their
registration number) and the contents of every queue ever created, so that a
dropped client's queue remains observable. -/
structure SSEManagerState where
  nextId : Nat := 0
  clients : List Nat := []
  queues : Nat → List SSEMessage := fun _ => []

namespace SSEManagerState

/-- Translation of SSEManager.register_client: a fresh bounded queue is
appended to the client list. -/
def register_client (s : SSEManagerState) : SSEManagerState × Nat :=
  ({ s with nextId := s.nextId + 1, clients := s.clients ++ [s.nextId] },
   s.nextId)

/-- Loop body of SSEManager.broadcast: put_nowait on a non-full queue counts
the client as sent; a full queue adds the client to dead_clients. -/
def broadcastStep (message : SSEMessage)
    (acc : (Nat → List SSEMessage) × Nat × List Nat) (c : Nat) :
    (Nat → List SSEMessage) × Nat × List Nat :=
  let (qs, sent, dead) := acc
  if (qs c).length < sseCapacity then
    (fun c' => if c' = c then qs c ++ [message] else qs c', sent + 1, dead)
  else
    (qs, sent, dead ++ [c])

/-- Translation of SSEManager.broadcast: wrap the event, enqueue without
blocking on every client in order, then remove the dead clients collected
during the pass.  The function is total: a full queue never blocks or fails
the call. -/
def broadcast (s : SSEManagerState) (event_data : List (String × JVal))
    (event_type : String) (now : Nat) : SSEManagerState × Nat :=
  let message : SSEMessage :=
    { type := event_type, data := event_data, timestamp := now }
  let r := s.clients.foldl (broadcastStep message) (s.queues, 0, [])
  let clients' := r.2.2.foldl (fun cl c => cl.erase c) s.clients
  ({ s with queues := r.1, clients := clients' }, r.2.1)

end SSEManagerState

namespace SSEManagerState

/-- A queue that is full when the pass starts is never appended to during
the pass: the put_nowait branch is skipped for it and other clients' puts do
not touch it. -/
theorem fold_queues_full (m : SSEMessage) (c : Nat) :
    ∀ (cl : List Nat) (qs : Nat → List SSEMessage) (sent : Nat)
      (dead : List Nat), ¬ (qs c).length < sseCapacity →
      (cl.foldl (broadcastStep m) (qs, sent, dead)).1 c = qs c := by
  intro cl
  induction cl with
  | nil => intro qs sent dead _; rfl
  | cons c₀ rest ih =>
    intro qs sent dead hfull
    by_cases h₀ : (qs c₀).length < sseCapacity
    · have hc : c ≠ c₀ := by
        intro he
        exact hfull (he ▸ h₀)
      have hfull' : ¬ ((fun c' => if c' = c₀ then qs c₀ ++ [m] else qs c')
          c).length < sseCapacity := by
        simpa [hc] using hfull
      simp only [List.foldl_cons, broadcastStep, h₀, if_true]
      rw [ih _ _ _ hfull']
      simp [hc]
    · simp only [List.foldl_cons, broadcastStep, h₀, if_false,
        Bool.false_eq_true]
      exact ih _ _ _ hfull

/-- Dead clients collected so far stay collected. -/
theorem fold_dead_mono (m : SSEMessage) (c : Nat) :
    ∀ (cl : List Nat) (qs : Nat → List SSEMessage) (sent : Nat)
      (dead : List Nat), c ∈ dead →
      c ∈ (cl.foldl (broadcastStep m) (qs, sent, dead)).2.2 := by
  intro cl
  induction cl with
  | nil => intro _ _ _ h; exact h
  | cons c₀ rest ih =>
    intro qs sent dead hmem
    by_cases h₀ : (qs c₀).length < sseCapacity
    · simp only [List.foldl_cons, broadcastStep, h₀, if_true]
      exact ih _ _ _ hmem
    · simp only [List.foldl_cons, broadcastStep, h₀, if_false,
        Bool.false_eq_true]
      exact ih _ _ _ (List.mem_append_left _ hmem)

/-- A client in the pass whose queue is full when the pass starts ends up in
the dead list. -/
theorem fold_dead_mem (m : SSEMessage) (c : Nat) :
    ∀ (cl : List Nat) (qs : Nat → List SSEMessage) (sent : Nat)
      (dead : List Nat), c ∈ cl → ¬ (qs c).length < sseCapacity →
      c ∈ (cl.foldl (broadcastStep m) (qs, sent, dead)).2.2 := by
  intro cl
  induction cl with
  | nil => intro _ _ _ h; exact absurd h (List.not_mem_nil c)
  | cons c₀ rest ih =>
    intro qs sent dead hmem hfull
    by_cases h₀ : (qs c₀).length < sseCapacity
    · have hc : c ≠ c₀ := by
        intro he
        exact hfull (he ▸ h₀)
      have hrest : c ∈ rest := by
        rcases List.mem_cons.mp hmem with he | h
        · exact absurd he hc
        · exact h
      simp only [List.foldl_cons, broadcastStep, h₀, if_true]
      refine ih _ _ _ hrest ?_
      simpa [hc] using hfull
    · simp only [List.foldl_cons, broadcastStep, h₀, if_false,
        Bool.false_eq_true]
      rcases List.mem_cons.mp hmem with he | h
      · exact fold_dead_mono m c rest _ _ _
          (by simp [he])
      · exact ih _ _ _ h hfull

/-- Erasures only remove clients. -/
theorem mem_foldl_erase (d : List Nat) :
    ∀ (l : List Nat) (x : Nat),
      x ∈ d.foldl (fun cl c => cl.erase c) l → x ∈ l := by
  induction d with
  | nil => intro _ _ h; exact h
  | cons c₀ d' ih =>
    intro l x h
    exact List.mem_of_mem_erase (ih _ _ h)

/-- On a duplicate-free client list, a client appearing in the dead list is
gone after the erasure loop. -/
theorem not_mem_foldl_erase (d : List Nat) :
    ∀ (l : List Nat) (c : Nat), l.Nodup → c ∈ d →
      c ∉ d.foldl (fun cl c => cl.erase c) l := by
  induction d with
  | nil => intro _ _ _ h; exact absurd h (List.not_mem_nil _)
  | cons c₀ d' ih =>
    intro l c hnd hmem
    rcases List.mem_cons.mp hmem with he | h
    · subst he
      intro hin
      have : c ∈ l.erase c := mem_foldl_erase d' _ _ hin
      rw [List.Nodup.mem_erase_iff hnd] at this
      exact this.1 rfl
    · exact ih _ _ (hnd.erase c₀) h

/-- C8: on every broadcast, a client whose queue is full does not receive
the message, is removed from the client list during that same call, and no
later broadcast ever reaches its queue or re-adds it; the enqueue is
put_nowait, so the call never blocks on a full queue. -/
theorem sse_full_queue_client_dropped (s : SSEManagerState) (c : Nat)
    (hnd : s.clients.Nodup) (hc : c ∈ s.clients)
    (hfull : ¬ (s.queues c).length < sseCapacity)
    (ed : List (String × JVal)) (et : String) (now : Nat) :
    ((broadcast s ed et now).1.queues c = s.queues c) ∧
    c ∉ (broadcast s ed et now).1.clients ∧
    ∀ ops : List (List (String × JVal) × String × Nat),
      (ops.foldl (fun st op => (broadcast st op.1 op.2.1 op.2.2).1)
        (broadcast s ed et now).1).queues c = s.queues c ∧
      c ∉ (ops.foldl (fun st op => (broadcast st op.1 op.2.1 op.2.2).1)
        (broadcast s ed et now).1).clients := by
  have hq1 : (broadcast s ed et now).1.queues c = s.queues c :=
    fold_queues_full _ c s.clients s.queues 0 [] hfull
  have hdead : c ∈ (s.clients.foldl
      (broadcastStep { type := et, data := ed, timestamp := now })
      (s.queues, 0, [])).2.2 :=
    fold_dead_mem _ c s.clients s.queues 0 [] hc hfull
  have hout : c ∉ (broadcast s ed et now).1.clients :=
    not_mem_foldl_erase _ s.clients c hnd hdead
  refine ⟨hq1, hout, ?_⟩
  intro ops
  -- later broadcasts: the queue stays full (hence untouched) and membership
  -- is never regained, by induction over the operation list
  suffices h : ∀ (ops : List (List (String × JVal) × String × Nat))
      (st : SSEManagerState), st.queues c = s.queues c → c ∉ st.clients →
      (ops.foldl (fun st op => (broadcast st op.1 op.2.1 op.2.2).1)
        st).queues c = s.queues c ∧
      c ∉ (ops.foldl (fun st op => (broadcast st op.1 op.2.1 op.2.2).1)
        st).clients by
    exact h ops _ hq1 hout
  intro ops
  induction ops with
  | nil => intro st h1 h2; exact ⟨h1, h2⟩
  | cons op ops' ih =>
    intro st h1 h2
    have hst1 : (broadcast st op.1 op.2.1 op.2.2).1.queues c = s.queues c :=
      (fold_queues_full { type := op.2.1, data := op.1, timestamp := op.2.2 }
        c st.clients st.queues 0 [] (by rw [h1]; exact hfull)).trans h1
    have hst2 : c ∉ (broadcast st op.1 op.2.1 op.2.2).1.clients := by
      intro hin
      exact h2 (mem_foldl_erase _ _ _ hin)
    exact ih _ hst1 hst2

end SSEManagerState

/-- Concrete state for the C8 witness: client 0 holds a saturated queue,
client 1 an empty one. -/
def w8state : SSEManagerState :=
  { nextId := 2
    clients := [0, 1]
    queues := fun c =>
      if c = 0 then List.replicate sseCapacity ⟨"m", [], 0⟩ else [] }

/-- Witness for the C8 theorem at the saturated client 0. -/
theorem sse_full_queue_client_dropped_witness :
    w8state.clients.Nodup ∧ 0 ∈ w8state.clients ∧
    ¬ (w8state.queues 0).length < sseCapacity ∧
    (((SSEManagerState.broadcast w8state [] "graph_activity" 5).1.queues 0 =
        w8state.queues 0) ∧
      0 ∉ (SSEManagerState.broadcast w8state [] "graph_activity" 5).1.clients ∧
      ∀ ops : List (List (String × JVal) × String × Nat),
        (ops.foldl (fun st op => (SSEManagerState.broadcast st op.1 op.2.1
            op.2.2).1)
          (SSEManagerState.broadcast w8state [] "graph_activity"
            5).1).queues 0 = w8state.queues 0 ∧
        0 ∉ (ops.foldl (fun st op => (SSEManagerState.broadcast st op.1
            op.2.1 op.2.2).1)
          (SSEManagerState.broadcast w8state [] "graph_activity"
            5).1).clients) :=
  ⟨by decide, by decide, by decide,
    SSEManagerState.sse_full_queue_client_dropped w8state 0 (by decide)
      (by decide) (by decide) [] "graph_activity" 5⟩

/- Embedding of changeset_watcher.py.  Filesystem paths are modelled as
component lists; os.path.join appends components and the os.sep split of a
joined path is the identity. -/

/-- Path as a list of components. -/
abbrev FsPath := List String

/-- Lookup in a path-keyed association list. -/
def palistGet {α : Type} (l : List (FsPath × α)) (k : FsPath) : Option α :=
  (l.find? (fun p => p.1 == k)).map (fun p => p.2)

/-- Assignment to a path-keyed dict. -/
def palistSet {α : Type} (l : List (FsPath × α)) (k : FsPath) (v : α) :
    List (FsPath × α) :=
  match l with
  | [] => [(k, v)]
  | p :: rest =>
    if p.1 == k then (k, v) :: rest else p :: palistSet rest k v

/-- Deletion of a path key. -/
def palistPop {α : Type} (l : List (FsPath × α)) (k : FsPath) :
    List (FsPath × α) :=
  match l with
  | [] => []
  | p :: rest =>
    if p.1 == k then rest else p :: palistPop rest k

/-- One entry of a project's changesets directory as the watcher reads it:
the directory name (the changeset id), whether it is a directory, and the
mtime of its changeset.json when that file exists. -/
structure CsEntry where
  name : String
  isDir : Bool := true
  manifestMtime : Option Nat := none
deriving DecidableEq, Repr

/-- A project root and its .claude/changesets listing (none when that
directory does not exist). -/
structure ProjectDir where
  path : FsPath
  changesets : Option (List CsEntry) := none
deriving DecidableEq, Repr

/-- Filesystem snapshot seen by one polling pass. -/
abbrev WatcherFS := List ProjectDir

/-- Changesets listing of a project in the snapshot. -/
def fsChangesets (fs : WatcherFS) (proj : FsPath) : Option (List CsEntry) :=
  (fs.find? (fun d => d.path == proj)).bind (fun d => d.changesets)

/-- Event record emitted by the watcher callback. -/
structure ChangesetFileEvent where
  changeset_id : String
  project_path : FsPath
  changeset_file : FsPath
  event_type : String
deriving DecidableEq, Repr

/-- State of ChangesetWatcher: tracked manifest mtimes by path and the
id-to-path memory used to recover deletion events. -/
structure ChangesetWatcherState where
  project_paths : List FsPath
  changeset_mtimes : List (FsPath × Nat) := []
  changeset_files : List (String × FsPath) := []
deriving DecidableEq, Repr

namespace ChangesetWatcherState

/-- Manifest path of a changeset directory:
project/.claude/changesets/id/changeset.json. -/
def mkManifestPath (proj : FsPath) (id : String) : FsPath :=
  proj ++ [".claude", "changesets", id, "changeset.json"]

/-- Accumulator of the created/modified scan: the two tracking dicts, the
paths seen this pass, and the events emitted so far. -/
structure ScanAcc where
  mtimes : List (FsPath × Nat)
  files : List (String × FsPath)
  current : List FsPath
  events : List ChangesetFileEvent
deriving DecidableEq, Repr

/-- Body of the per-entry loop of _check_for_changes: skip non-directories
and directories without a manifest; record the path as current; emit
"created" for unseen paths and "modified" for grown mtimes. -/
def scanEntry (proj : FsPath) (acc : ScanAcc) (en : CsEntry) : ScanAcc :=
  if en.isDir then
    match en.manifestMtime with
    | some mtime =>
      let f := mkManifestPath proj en.name
      let acc1 := { acc with current := acc.current ++ [f] }
      match palistGet acc1.mtimes f with
      | none =>
        { acc1 with
            mtimes := palistSet acc1.mtimes f mtime
            files := alistSet acc1.files en.name f
            events := acc1.events ++
              [{ changeset_id := en.name, project_path := proj,
                 changeset_file := f, event_type := "created" }] }
      | some old =>
        if old < mtime then
          { acc1 with
              mtimes := palistSet acc1.mtimes f mtime
              events := acc1.events ++
                [{ changeset_id := en.name, project_path := proj,
                   changeset_file := f, event_type := "modified" }] }
        else acc1
    | none => acc
  else acc

/-- Per-project loop: projects without a changesets directory are skipped. -/
def scanProject (fs : WatcherFS) (acc : ScanAcc) (proj : FsPath) : ScanAcc :=
  match fsChangesets fs proj with
  | none => acc
  | some entries => entries.foldl (scanEntry proj) acc

/-- Created/modified phase of _check_for_changes. -/
def scanPhase (w : ChangesetWatcherState) (fs : WatcherFS) : ScanAcc :=
  w.project_paths.foldl (scanProject fs)
    { mtimes := w.changeset_mtimes, files := w.changeset_files,
      current := [], events := [] }

/-- Recovery of the project path from a manifest path, following the Python
split/index/join: everything before the component preceding the first
"changesets" component; an index of zero slices off only the last component
(parts[:-1]); no "changesets" component yields the empty path. -/
def recoverProject (p : FsPath) : FsPath :=
  match p.findIdx? (fun s => s == "changesets") with
  | some idx => if idx = 0 then p.dropLast else p.take (idx - 1)
  | none => []

/-- Body of the deletion loop: drop the tracked mtime; when some remembered
id still maps to the path, drop that mapping and emit "deleted". -/
def deleteStep
    (acc : List (FsPath × Nat) × List (String × FsPath) ×
      List ChangesetFileEvent) (f : FsPath) :
    List (FsPath × Nat) × List (String × FsPath) ×
      List ChangesetFileEvent :=
  let (mt, files, evs) := acc
  match files.find? (fun q => q.2 == f) with
  | some q =>
    (palistPop mt f, files.eraseP (fun q => q.2 == f),
     evs ++ [{ changeset_id := q.1, project_path := recoverProject f,
               changeset_file := f, event_type := "deleted" }])
  | none => (palistPop mt f, files, evs)

/-- Tracked paths absent from the current pass, in tracking order (the
Python set difference has no specified order; the model fixes insertion
order). -/
def deletedPaths (r1 : ScanAcc) : List FsPath :=
  (r1.mtimes.map Prod.fst).filter (fun p => ¬ p ∈ r1.current)

/-- Translation of ChangesetWatcher._check_for_changes: the created/modified
scan followed by the deletion pass. -/
def checkForChanges (w : ChangesetWatcherState) (fs : WatcherFS) :
    ChangesetWatcherState × List ChangesetFileEvent :=
  let r1 := scanPhase w fs
  let r2 := (deletedPaths r1).foldl deleteStep (r1.mtimes, r1.files, r1.events)
  ({ w with changeset_mtimes := r2.1, changeset_files := r2.2.1 }, r2.2.2)

end ChangesetWatcherState

namespace ChangesetWatcherState

theorem palistPop_sublist {α : Type} (l : List (FsPath × α)) (k : FsPath) :
    List.Sublist (palistPop l k) l := by
  induction l with
  | nil => simp [palistPop]
  | cons p rest ih =>
    by_cases h : p.1 == k
    · simp only [palistPop, h, if_true]
      exact List.sublist_cons_self p rest
    · simp only [palistPop, h, Bool.false_eq_true, if_false]
      exact ih.cons₂ p

theorem keys_palistPop_subset {α : Type} (l : List (FsPath × α)) (k x : FsPath)
    (h : x ∈ (palistPop l k).map Prod.fst) : x ∈ l.map Prod.fst :=
  ((palistPop_sublist l k).map Prod.fst).mem h

theorem not_mem_keys_palistPop {α : Type} (l : List (FsPath × α)) (k : FsPath)
    (hnd : (l.map Prod.fst).Nodup) : k ∉ (palistPop l k).map Prod.fst := by
  induction l with
  | nil => simp [palistPop]
  | cons p rest ih =>
    simp only [List.map_cons, List.nodup_cons] at hnd
    by_cases h : p.1 == k
    · have hp : p.1 = k := by simpa using h
      simp only [palistPop, h, if_true]
      rw [← hp]
      exact hnd.1
    · simp only [palistPop, h, Bool.false_eq_true, if_false, List.map_cons,
        List.mem_cons]
      rintro (he | hm)
      · exact (show p.1 ≠ k by simpa using h) he.symm
      · exact ih hnd.2 hm

theorem keys_nodup_palistPop {α : Type} (l : List (FsPath × α)) (k : FsPath)
    (hnd : (l.map Prod.fst).Nodup) :
    ((palistPop l k).map Prod.fst).Nodup :=
  ((palistPop_sublist l k).map Prod.fst).nodup hnd

/-- Folded pops only shrink the key set. -/
theorem keys_foldl_pop_subset (dels : List FsPath) :
    ∀ (mt : List (FsPath × Nat)) (x : FsPath),
      x ∈ (dels.foldl (fun m f => palistPop m f) mt).map Prod.fst →
      x ∈ mt.map Prod.fst := by
  induction dels with
  | nil => intro _ _ h; exact h
  | cons g rest ih =>
    intro mt x h
    exact keys_palistPop_subset _ _ _ (ih _ _ h)

/-- After popping every deleted path, a deleted path is no longer a key. -/
theorem not_mem_keys_foldl_pop (dels : List FsPath) :
    ∀ (mt : List (FsPath × Nat)) (p : FsPath),
      (mt.map Prod.fst).Nodup → p ∈ dels →
      p ∉ (dels.foldl (fun m f => palistPop m f) mt).map Prod.fst := by
  induction dels with
  | nil => intro _ _ _ h; exact absurd h (List.not_mem_nil _)
  | cons f dels' ih =>
    intro mt p hnd hmem
    rcases List.mem_cons.mp hmem with he | hm
    · subst he
      intro hin
      have h0 : p ∈ (palistPop mt p).map Prod.fst :=
        keys_foldl_pop_subset dels' _ _ (by simpa using hin)
      exact not_mem_keys_palistPop mt p hnd h0
    · exact ih _ _ (keys_nodup_palistPop mt f hnd) hm

/-- The mtimes component of the deletion fold is the plain fold of pops. -/
theorem deleteFold_mtimes (dels : List FsPath) :
    ∀ (mt : List (FsPath × Nat)) (files : List (String × FsPath))
      (evs : List ChangesetFileEvent),
      (dels.foldl deleteStep (mt, files, evs)).1 =
        dels.foldl (fun m f => palistPop m f) mt := by
  induction dels with
  | nil => intro _ _ _; rfl
  | cons f dels' ih =>
    intro mt files evs
    cases h : files.find? (fun q => q.2 == f) with
    | some q => simp only [List.foldl_cons, deleteStep, h]; exact ih _ _ _
    | none => simp only [List.foldl_cons, deleteStep, h]; exact ih _ _ _

/-- With pairwise-distinct remembered paths, the reverse lookup finds
exactly the remembered entry. -/
theorem find?_eq_of_snd_nodup (files : List (String × FsPath))
    (cid : String) (p : FsPath) (hnd : (files.map Prod.snd).Nodup)
    (hmem : (cid, p) ∈ files) :
    files.find? (fun q => q.2 == p) = some (cid, p) := by
  induction files with
  | nil => exact absurd hmem (List.not_mem_nil _)
  | cons q₀ rest ih =>
    simp only [List.map_cons, List.nodup_cons] at hnd
    rcases List.mem_cons.mp hmem with he | hm
    · subst he
      simp [List.find?]
    · have hq : (q₀.2 == p) = false := by
        simp only [beq_eq_false_iff_ne, ne_eq]
        intro he
        exact hnd.1 (he ▸ List.mem_map_of_mem Prod.snd hm)
      simp only [List.find?, hq]
      exact ih hnd.2 hm

/-- Event list produced by the deletion fold: exactly one deleted event per
absent path, in order, with the remembered id and the recovered project. -/
theorem deleteFold_events (dels : List FsPath) :
    ∀ (mt : List (FsPath × Nat)) (files : List (String × FsPath))
      (evs : List ChangesetFileEvent),
      (files.map Prod.snd).Nodup →
      (∀ p ∈ dels, ∃ cid, (cid, p) ∈ files) →
      dels.Nodup →
      (dels.foldl deleteStep (mt, files, evs)).2.2 =
        evs ++ dels.map (fun p =>
          { changeset_id :=
              ((files.find? (fun q => q.2 == p)).map Prod.fst).getD ""
            project_path := recoverProject p
            changeset_file := p
            event_type := "deleted" }) := by
  induction dels with
  | nil => intro _ _ evs _ _ _; simp
  | cons p dels' ih =>
    intro mt files evs hnd hcov hdnd
    obtain ⟨cid, hmem⟩ := hcov p (List.mem_cons_self p dels')
    have hfind : files.find? (fun q => q.2 == p) = some (cid, p) :=
      find?_eq_of_snd_nodup files cid p hnd hmem
    simp only [List.nodup_cons] at hdnd
    have hnd' : ((files.eraseP (fun q => q.2 == p)).map Prod.snd).Nodup :=
      ((List.eraseP_sublist files).map Prod.snd).nodup hnd
    have hcov' : ∀ p' ∈ dels',
        ∃ cid', (cid', p') ∈ files.eraseP (fun q => q.2 == p) := by
      intro p' hp'
      obtain ⟨cid', hmem'⟩ := hcov p' (List.mem_cons_of_mem p hp')
      have hne : p' ≠ p := fun he => hdnd.1 (he ▸ hp')
      refine ⟨cid', ?_⟩
      rw [List.mem_eraseP_of_neg]
      · exact hmem'
      · simp [hne]
    have hsame : ∀ p' ∈ dels',
        (files.eraseP (fun q => q.2 == p)).find? (fun q => q.2 == p') =
          files.find? (fun q => q.2 == p') := by
      intro p' hp'
      obtain ⟨cid', hmem'⟩ := hcov p' (List.mem_cons_of_mem p hp')
      have hne : p' ≠ p := fun he => hdnd.1 (he ▸ hp')
      have h1 : files.find? (fun q => q.2 == p') = some (cid', p') :=
        find?_eq_of_snd_nodup files cid' p' hnd hmem'
      have hmem'' : (cid', p') ∈ files.eraseP (fun q => q.2 == p) := by
        rw [List.mem_eraseP_of_neg]
        · exact hmem'
        · simp [hne]
      have h2 : (files.eraseP (fun q => q.2 == p)).find?
          (fun q => q.2 == p') = some (cid', p') :=
        find?_eq_of_snd_nodup _ cid' p' hnd' hmem''
      rw [h1, h2]
    simp only [List.foldl_cons, deleteStep, hfind]
    rw [ih _ _ _ hnd' hcov' hdnd.2]
    have hmapeq : dels'.map (fun p' =>
        ({ changeset_id :=
              (((files.eraseP (fun q => q.2 == p)).find?
                (fun q => q.2 == p')).map Prod.fst).getD ""
           project_path := recoverProject p'
           changeset_file := p'
           event_type := "deleted" } : ChangesetFileEvent)) =
        dels'.map (fun p' =>
        ({ changeset_id :=
              ((files.find? (fun q => q.2 == p')).map Prod.fst).getD ""
           project_path := recoverProject p'
           changeset_file := p'
           event_type := "deleted" } : ChangesetFileEvent)) := by
      apply List.map_congr_left
      intro p' hp'
      rw [hsame p' hp']
    rw [hmapeq, List.map_cons, hfind]
    simp [List.append_assoc]

/-- Scan-phase preservation: the created/modified pass emits no "deleted"
event. -/
theorem scanPhase_no_deleted (w : ChangesetWatcherState) (fs : WatcherFS) :
    ∀ e ∈ (scanPhase w fs).events, e.event_type ≠ "deleted" := by
  have hstep : ∀ (proj : FsPath) (acc : ScanAcc) (en : CsEntry),
      (∀ e ∈ acc.events, e.event_type ≠ "deleted") →
      ∀ e ∈ (scanEntry proj acc en).events, e.event_type ≠ "deleted" := by
    intro proj acc en hacc e he
    simp only [scanEntry] at he
    by_cases hd : en.isDir = true
    · rw [if_pos hd] at he
      cases hm : en.manifestMtime with
      | none => rw [hm] at he; exact hacc e he
      | some mtime =>
        rw [hm] at he
        dsimp only at he
        cases hg : palistGet acc.mtimes (mkManifestPath proj en.name) with
        | none =>
          rw [hg] at he
          dsimp only at he
          simp only [List.mem_append, List.mem_singleton] at he
          rcases he with he | he
          · exact hacc e he
          · subst he
            show "created" ≠ "deleted"
            decide
        | some old =>
          rw [hg] at he
          dsimp only at he
          by_cases ho : old < mtime
          · rw [if_pos ho] at he
            dsimp only at he
            simp only [List.mem_append, List.mem_singleton] at he
            rcases he with he | he
            · exact hacc e he
            · subst he
              show "modified" ≠ "deleted"
              decide
          · rw [if_neg ho] at he
            exact hacc e he
    · rw [if_neg hd] at he
      exact hacc e he
  have hproj : ∀ (projs : List FsPath) (acc : ScanAcc),
      (∀ e ∈ acc.events, e.event_type ≠ "deleted") →
      ∀ e ∈ (projs.foldl (scanProject fs) acc).events,
        e.event_type ≠ "deleted" := by
    intro projs
    induction projs with
    | nil => intro acc h; exact h
    | cons proj rest ih =>
      intro acc hacc
      apply ih
      cases hcs : fsChangesets fs proj with
      | none => simpa [scanProject, hcs] using hacc
      | some entries =>
        simp only [scanProject, hcs]
        have : ∀ (ens : List CsEntry) (acc : ScanAcc),
            (∀ e ∈ acc.events, e.event_type ≠ "deleted") →
            ∀ e ∈ (ens.foldl (scanEntry proj) acc).events,
              e.event_type ≠ "deleted" := by
          intro ens
          induction ens with
          | nil => intro acc h; exact h
          | cons en rest2 ih2 =>
            intro acc hacc2
            exact ih2 _ (hstep proj acc en hacc2)
        exact this entries acc hacc
  intro e he
  refine hproj w.project_paths _ ?_ e he
  intro e2 h2
  exact absurd h2 (List.not_mem_nil _)

/-- C9 (amended): in every polling pass, every previously tracked manifest
path absent from the pass is dropped from the tracking state; it causes
exactly one "deleted" callback — carrying the id under which the path is
still remembered and the project path recovered from the path — provided the
id-to-path memory still holds an entry for that exact path (only the
most-recently-scanned path survives per id, so this can fail when two
projects share a changeset id).  The hypotheses are the dict invariants:
tracked paths are pairwise distinct and remembered paths are pairwise
distinct. -/
theorem changesetWatcher_absent_paths_deleted (w : ChangesetWatcherState)
    (fs : WatcherFS)
    (hnd : ((scanPhase w fs).mtimes.map Prod.fst).Nodup)
    (hsnd : ((scanPhase w fs).files.map Prod.snd).Nodup)
    (hcov : ∀ p ∈ deletedPaths (scanPhase w fs),
      ∃ cid, (cid, p) ∈ (scanPhase w fs).files) :
    (checkForChanges w fs).2 =
      (scanPhase w fs).events ++
        (deletedPaths (scanPhase w fs)).map (fun p =>
          { changeset_id :=
              (((scanPhase w fs).files.find? (fun q => q.2 == p)).map
                Prod.fst).getD ""
            project_path := recoverProject p
            changeset_file := p
            event_type := "deleted" }) ∧
    (∀ e ∈ (scanPhase w fs).events, e.event_type ≠ "deleted") ∧
    ∀ p ∈ deletedPaths (scanPhase w fs),
      p ∉ (checkForChanges w fs).1.changeset_mtimes.map Prod.fst := by
  have hdnd : (deletedPaths (scanPhase w fs)).Nodup :=
    hnd.filter _
  refine ⟨?_, scanPhase_no_deleted w fs, ?_⟩
  · exact deleteFold_events (deletedPaths (scanPhase w fs))
      (scanPhase w fs).mtimes (scanPhase w fs).files
      (scanPhase w fs).events hsnd hcov hdnd
  · intro p hp
    have hmt : (checkForChanges w fs).1.changeset_mtimes =
        (deletedPaths (scanPhase w fs)).foldl (fun m f => palistPop m f)
          (scanPhase w fs).mtimes :=
      deleteFold_mtimes (deletedPaths (scanPhase w fs))
        (scanPhase w fs).mtimes (scanPhase w fs).files
        (scanPhase w fs).events
    rw [hmt]
    exact not_mem_keys_foldl_pop (deletedPaths (scanPhase w fs)) _ _ hnd hp

end ChangesetWatcherState

/-- Projects for the C9 counterexample: both contain a changeset directory
named "c1". -/
def w9fs1 : WatcherFS :=
  [{ path := ["prjA"],
     changesets := some [{ name := "c1", manifestMtime := some 1 }] },
   { path := ["prjB"],
     changesets := some [{ name := "c1", manifestMtime := some 1 }] }]

/-- Same snapshot after prjA's manifest disappears. -/
def w9fs2 : WatcherFS :=
  [{ path := ["prjA"], changesets := some [] },
   { path := ["prjB"],
     changesets := some [{ name := "c1", manifestMtime := some 1 }] }]

/-- Watcher state after the first pass over w9fs1. -/
def w9w1 : ChangesetWatcherState :=
  (ChangesetWatcherState.checkForChanges
    { project_paths := [["prjA"], ["prjB"]] } w9fs1).1

/-- C9 counterexample: with two projects sharing the changeset id "c1",
prjA's manifest path is tracked and then absent, it is dropped from
tracking, yet the pass emits no "deleted" event at all — the remembered
id-to-path map only kept the later project's path. -/
theorem changesetWatcher_duplicate_id_deleted_event_lost :
    (ChangesetWatcherState.mkManifestPath ["prjA"] "c1" ∈
      w9w1.changeset_mtimes.map Prod.fst) ∧
    (ChangesetWatcherState.mkManifestPath ["prjA"] "c1" ∉
      (ChangesetWatcherState.scanPhase w9w1 w9fs2).current) ∧
    ((ChangesetWatcherState.checkForChanges w9w1 w9fs2).2.filter
      (fun e => e.event_type == "deleted")) = [] ∧
    (ChangesetWatcherState.mkManifestPath ["prjA"] "c1" ∉
      (ChangesetWatcherState.checkForChanges
        w9w1 w9fs2).1.changeset_mtimes.map Prod.fst) := by
  decide

/-- Fixture for the C9 witness: ids unique across the two projects, prjA's
changeset gone from the snapshot. -/
def w9bw : ChangesetWatcherState :=
  { project_paths := [["prjA"], ["prjB"]]
    changeset_mtimes :=
      [(ChangesetWatcherState.mkManifestPath ["prjA"] "c1", 1),
       (ChangesetWatcherState.mkManifestPath ["prjB"] "c2", 1)]
    changeset_files :=
      [("c1", ChangesetWatcherState.mkManifestPath ["prjA"] "c1"),
       ("c2", ChangesetWatcherState.mkManifestPath ["prjB"] "c2")] }

/-- Snapshot for the C9 witness. -/
def w9bfs : WatcherFS :=
  [{ path := ["prjA"], changesets := some [] },
   { path := ["prjB"],
     changesets := some [{ name := "c2", manifestMtime := some 1 }] }]

/-- Witness for the amended C9 theorem on the unique-id fixture. -/
theorem changesetWatcher_absent_paths_deleted_witness :
    ((ChangesetWatcherState.scanPhase w9bw w9bfs).mtimes.map
      Prod.fst).Nodup ∧
    ((ChangesetWatcherState.scanPhase w9bw w9bfs).files.map
      Prod.snd).Nodup ∧
    (∀ p ∈ ChangesetWatcherState.deletedPaths
        (ChangesetWatcherState.scanPhase w9bw w9bfs),
      ∃ cid, (cid, p) ∈ (ChangesetWatcherState.scanPhase w9bw w9bfs).files) ∧
    ((ChangesetWatcherState.checkForChanges w9bw w9bfs).2 =
      (ChangesetWatcherState.scanPhase w9bw w9bfs).events ++
        (ChangesetWatcherState.deletedPaths
          (ChangesetWatcherState.scanPhase w9bw w9bfs)).map (fun p =>
          { changeset_id :=
              (((ChangesetWatcherState.scanPhase w9bw w9bfs).files.find?
                (fun q => q.2 == p)).map Prod.fst).getD ""
            project_path := ChangesetWatcherState.recoverProject p
            changeset_file := p
            event_type := "deleted" }) ∧
      (∀ e ∈ (ChangesetWatcherState.scanPhase w9bw w9bfs).events,
        e.event_type ≠ "deleted") ∧
      ∀ p ∈ ChangesetWatcherState.deletedPaths
          (ChangesetWatcherState.scanPhase w9bw w9bfs),
        p ∉ (ChangesetWatcherState.checkForChanges
          w9bw w9bfs).1.changeset_mtimes.map Prod.fst) := by
  have hcov : ∀ p ∈ ChangesetWatcherState.deletedPaths
      (ChangesetWatcherState.scanPhase w9bw w9bfs),
      ∃ cid, (cid, p) ∈ (ChangesetWatcherState.scanPhase w9bw w9bfs).files := by
    intro p hp
    have he : ChangesetWatcherState.deletedPaths
        (ChangesetWatcherState.scanPhase w9bw w9bfs) =
        [ChangesetWatcherState.mkManifestPath ["prjA"] "c1"] := by decide
    rw [he, List.mem_singleton] at hp
    subst hp
    exact ⟨"c1", by decide⟩
  exact ⟨by decide, by decide, hcov,
    ChangesetWatcherState.changesetWatcher_absent_paths_deleted w9bw w9bfs
      (by decide) (by decide) hcov⟩

/-- Concrete pair of events for the C6 witness. -/
def ev6 (i : Nat) : ConversationEvent :=
  { id := toString i, timestamp := i, changeset_id := "c",
    event_type := "tool_called", domain := some "d", agent_id := some "a" }

/-- Witness for the amended C6 theorem at ceiling 1 with two inserts. -/
theorem eventStore_bound_and_index_subset_witness :
    (1 ≤ 1) ∧ (1 ≤ 1) ∧ ([ev6 0, ev6 1].length = 1 + 1) ∧
    (([ev6 0, ev6 1].foldl EventStore.add_event
        (EventStore.init 1)).events.length = 1 ∧
      ([ev6 0, ev6 1].foldl EventStore.add_event
        (EventStore.init 1)).events = [ev6 0, ev6 1].drop 1 ∧
      ∀ L₁ L₂ : List ConversationEvent, [ev6 0, ev6 1] = L₁ ++ L₂ →
        (∀ k e, e ∈ EventStore.bucketGet
            (L₁.foldl EventStore.add_event
              (EventStore.init 1)).events_by_changeset k →
          e ∈ (L₁.foldl EventStore.add_event (EventStore.init 1)).events) ∧
        (∀ k e, e ∈ EventStore.bucketGet
            (L₁.foldl EventStore.add_event
              (EventStore.init 1)).events_by_agent k →
          e ∈ (L₁.foldl EventStore.add_event (EventStore.init 1)).events) ∧
        (∀ k e, e ∈ EventStore.bucketGet
            (L₁.foldl EventStore.add_event
              (EventStore.init 1)).events_by_skill k →
          e ∈ (L₁.foldl EventStore.add_event (EventStore.init 1)).events)) :=
  ⟨by decide, by decide, rfl,
    eventStore_bound_and_index_subset 1 1 (by decide) (by decide)
      [ev6 0, ev6 1] rfl⟩

/- Embedding of transcript_watcher.py and the parsing entry points of
transcript_reader.py it calls.  File contents are byte lists modelled as
character lists (one unit per byte); json.loads together with Python's
dynamic dict reads is abstracted as a decode parameter producing the typed
view of one log entry, while every decision made by repository code (type
filter, content-block walk, empty-message test, offsets, broadcasts) is
translated. -/

namespace TranscriptWatcher

/-- Strip of a line (str.strip): leading and trailing whitespace removed. -/
def trimChars (cs : List Char) : List Char :=
  ((cs.dropWhile Char.isWhitespace).reverse.dropWhile
    Char.isWhitespace).reverse

/-- Pieces of a byte list between newline separators, with the trailing
piece included (the line iteration of a file object, with each terminator
dropped). -/
def splitLines : List Char → List (List Char)
  | [] => [[]]
  | c :: rest =>
    if c = '\n' then [] :: splitLines rest
    else
      match splitLines rest with
      | l :: ls => (c :: l) :: ls
      | [] => [[c]]

/-- Translation of TranscriptWatcher._read_new_lines: seek to the offset,
iterate lines, strip each and keep the non-empty ones. -/
def readNewLines (content : List Char) (start_pos : Nat) :
    List (List Char) :=
  ((splitLines (content.drop start_pos)).map trimChars).filter
    (fun l => ¬ l = [])

/-- Content block of a transcript message after the defaulting dict reads of
_parse_entry; blocks that are not dicts or carry an unrecognized type are
all skipped by the parser and collapse into one constructor. -/
inductive ContentBlock where
  | text (text : String) : ContentBlock
  | tool_use (id : String) (name : String) (input : TaskInput) : ContentBlock
  | tool_result (content : String) : ContentBlock
  | other : ContentBlock
deriving DecidableEq, Repr

/-- Typed view of one parsed JSONL entry: the keys _parse_and_broadcast and
_parse_entry read, each optional exactly as dict.get is.  The message
content is either a plain string or a block list. -/
structure LogEntry where
  type : Option String := none
  timestamp : Option String := none
  message_content : Option (String ⊕ List ContentBlock) := none
  uuid : Option String := none
  sessionId : Option String := none
  agentId : Option String := none
deriving DecidableEq, Repr

/-- Tool-use record handed to the task extractor ({'id','name','input'}). -/
structure ToolUseCall where
  id : String
  name : String
  input : TaskInput
deriving DecidableEq, Repr

/-- TranscriptMessage of transcript_reader.py; the timestamp is kept as the
raw value, since datetime parsing only normalizes it and cannot change
which messages are emitted. -/
structure TranscriptMessage where
  id : String
  timestamp : Option String
  role : String
  session_id : String
  agent_id : Option String
  content : List ContentBlock
  text : String
  tool_calls : List ToolUseCall
deriving DecidableEq, Repr

/-- Result-content truncation of tool_result blocks beyond 2000
characters. -/
def truncResult (s : String) : String :=
  if s.length > 2000 then (s.take 2000) ++ "... [truncated]" else s

/-- Accumulating state of the content-block loop of _parse_entry. -/
structure BlockAcc where
  text_parts : List String := []
  tool_calls : List ToolUseCall := []
  filtered_content : List ContentBlock := []
deriving DecidableEq, Repr

/-- One iteration of the content-block loop (include_tool_results is true on
the watcher path). -/
def parseBlock (acc : BlockAcc) (b : ContentBlock) : BlockAcc :=
  match b with
  | ContentBlock.text t =>
    if t ≠ "" then
      { acc with text_parts := acc.text_parts ++ [t]
                 filtered_content := acc.filtered_content ++
                   [ContentBlock.text t] }
    else acc
  | ContentBlock.tool_use i n inp =>
    { acc with
        tool_calls := acc.tool_calls ++ [{ id := i, name := n, input := inp }]
        filtered_content := acc.filtered_content ++
          [ContentBlock.tool_use i n inp] }
  | ContentBlock.tool_result c =>
    { acc with filtered_content := acc.filtered_content ++
        [ContentBlock.tool_result (truncResult c)] }
  | ContentBlock.other => acc

/-- Translation of TranscriptReader._parse_entry. -/
def parse_entry (entry : LogEntry) : Option TranscriptMessage :=
  match entry.type with
  | none => none
  | some t =>
    if t = "user" ∨ t = "assistant" then
      match entry.message_content with
      | some (Sum.inl s) =>
        some { id := entry.uuid.getD ""
               timestamp := entry.timestamp
               role := t
               session_id := entry.sessionId.getD ""
               agent_id := entry.agentId
               content := [ContentBlock.text s]
               text := s
               tool_calls := [] }
      | mc =>
        let blocks := match mc with
          | some (Sum.inr bs) => bs
          | _ => []
        let acc := blocks.foldl parseBlock {}
        if acc.text_parts = [] ∧ acc.tool_calls = [] then none
        else
          some { id := entry.uuid.getD ""
                 timestamp := entry.timestamp
                 role := t
                 session_id := entry.sessionId.getD ""
                 agent_id := entry.agentId
                 content := acc.filtered_content
                 text := String.intercalate "\n" acc.text_parts
                 tool_calls := acc.tool_calls }
    else none

/-- One callback issued through broadcast_callback, tagged with its event
type. -/
inductive BroadcastMsg where
  | transcript (changeset_id : String) (session_id : String) (source : String)
      (message : TranscriptMessage) : BroadcastMsg
  | taskState (changeset_id : String) (session_id : String)
      (ev : TaskEvent) : BroadcastMsg
deriving DecidableEq, Repr

/-- Event type string of a callback. -/
def BroadcastMsg.btype : BroadcastMsg → String
  | BroadcastMsg.transcript _ _ _ _ => "transcript_message"
  | BroadcastMsg.taskState _ _ _ => "task_state_change"

/-- Translation of TranscriptWatcher._parse_and_broadcast for one line: a
decode failure or filtered type yields nothing; otherwise one
transcript_message broadcast followed by the task events of every tool call
of the message. -/
def parse_and_broadcast (decodeLine : List Char → Option LogEntry)
    (line : List Char) (changeset_id session_id source : String)
    (ext : TaskStateExtractor) : TaskStateExtractor × List BroadcastMsg :=
  match decodeLine line with
  | none => (ext, [])
  | some entry =>
    if entry.type = some "user" ∨ entry.type = some "assistant" then
      match parse_entry entry with
      | none => (ext, [])
      | some msg =>
        let r := msg.tool_calls.foldl
          (fun (acc : TaskStateExtractor × List BroadcastMsg) tu =>
            let r := TaskStateExtractor.process_tool_call acc.1
              { name := tu.name, input := tu.input }
            match r.2 with
            | some ev =>
              (r.1, acc.2 ++ [BroadcastMsg.taskState changeset_id session_id
                ev])
            | none => (r.1, acc.2)) (ext, [])
        (r.1,
         BroadcastMsg.transcript changeset_id session_id source msg :: r.2)
    else (ext, [])

/-- Fold of _parse_and_broadcast over the new lines of one file. -/
def broadcastLines (decodeLine : List Char → Option LogEntry)
    (lines : List (List Char)) (changeset_id session_id source : String)
    (ext : TaskStateExtractor) : TaskStateExtractor × List BroadcastMsg :=
  lines.foldl
    (fun acc line =>
      let r := parse_and_broadcast decodeLine line changeset_id session_id
        source acc.1
      (r.1, acc.2 ++ r.2)) (ext, [])

/-- Per-watch slice of the watcher state: the Claude session id, the tracked
byte offsets, and the task extractor allocated for the changeset. -/
structure WatchState where
  session_id : String
  main_position : Nat
  subagent_positions : List (String × Nat) := []
  extractor : TaskStateExtractor := {}
deriving DecidableEq, Repr

/-- Filesystem snapshot of one watch at one poll: the main transcript
content when the file exists, and the agent-<id>.jsonl listing of the
subagents directory when that directory exists. -/
structure WatchFS where
  main : Option (List Char) := none
  subagentsDir : Option (List (String × List Char)) := none
deriving DecidableEq, Repr

/-- Main-transcript phase of the per-watch body of _check_for_updates: when
the file exists and has grown, read and broadcast the new lines and advance
the offset. -/
def pollMain (decodeLine : List Char → Option LogEntry)
    (changeset_id : String) (st : WatchState) (fs : WatchFS) :
    WatchState × List BroadcastMsg :=
  match fs.main with
  | some content =>
    if content.length > st.main_position then
      let r := broadcastLines decodeLine
        (readNewLines content st.main_position) changeset_id
        st.session_id "main" st.extractor
      ({ st with main_position := content.length, extractor := r.1 }, r.2)
    else (st, [])
  | none => (st, [])

/-- Discovery phase: new subagent transcripts are tracked from offset
zero. -/
def discover (st : WatchState) (fs : WatchFS) : WatchState :=
  match fs.subagentsDir with
  | some entries =>
    let ps := entries.foldl
      (fun (ps : List (String × Nat)) (en : String × List Char) =>
        if (alistGet ps en.1).isSome then ps else ps ++ [(en.1, 0)])
      st.subagent_positions
    { st with subagent_positions := ps }
  | none => st

/-- Loop body of the subagent-reading phase. -/
def subStep (decodeLine : List Char → Option LogEntry)
    (changeset_id session_id : String)
    (fsd : List (String × List Char))
    (acc : List (String × Nat) × TaskStateExtractor × List BroadcastMsg)
    (ap : String × Nat) :
    List (String × Nat) × TaskStateExtractor × List BroadcastMsg :=
  match fsd.find? (fun en => en.1 == ap.1) with
  | some en =>
    if en.2.length > ap.2 then
      let r := broadcastLines decodeLine (readNewLines en.2 ap.2)
        changeset_id session_id ap.1 acc.2.1
      (acc.1 ++ [(ap.1, en.2.length)], r.1, acc.2.2 ++ r.2)
    else (acc.1 ++ [ap], acc.2.1, acc.2.2)
  | none => (acc.1 ++ [ap], acc.2.1, acc.2.2)

/-- Subagent-reading phase: every tracked subagent file that exists and has
grown is read from its offset, which then advances. -/
def pollSubs (decodeLine : List Char → Option LogEntry)
    (changeset_id : String) (st : WatchState) (fs : WatchFS) :
    WatchState × List BroadcastMsg :=
  let r := st.subagent_positions.foldl
    (subStep decodeLine changeset_id st.session_id (fs.subagentsDir.getD []))
    ([], st.extractor, [])
  ({ st with subagent_positions := r.1, extractor := r.2.1 }, r.2.2)

/-- Translation of the per-watch body of _check_for_updates: read the grown
main file and advance its offset, discover new subagent files at offset
zero, then read every grown subagent file and advance its offset. -/
def pollWatch (decodeLine : List Char → Option LogEntry)
    (changeset_id : String) (st : WatchState) (fs : WatchFS) :
    WatchState × List BroadcastMsg :=
  let r1 := pollMain decodeLine changeset_id st fs
  let st2 := discover r1.1 fs
  let r3 := pollSubs decodeLine changeset_id st2 fs
  (r3.1, r1.2 ++ r3.2)

end TranscriptWatcher

/-- Lookup hits in the left part of an appended association list. -/
theorem alistGet_append_left {α : Type} (l l' : List (String × α))
    (k : String) (v : α) (h : alistGet l k = some v) :
    alistGet (l ++ l') k = some v := by
  unfold alistGet at h ⊢
  rw [List.find?_append]
  cases hf : l.find? (fun p => p.1 == k) with
  | none => rw [hf] at h; simp at h
  | some q => rw [hf] at h; simpa using h

/-- Mapping a key-preserving function over an association list maps the
found entry. -/
theorem alistGet_map_entry {α β : Type} (f : String × α → String × β)
    (hf : ∀ pr, (f pr).1 = pr.1) (l : List (String × α)) (k : String)
    (v : α) (h : alistGet l k = some v) :
    alistGet (l.map f) k = some (f (k, v)).2 := by
  induction l with
  | nil => simp [alistGet] at h
  | cons pr rest ih =>
    obtain ⟨k₀, v₀⟩ := pr
    by_cases hk : k₀ == k
    · have hke : k₀ = k := by simpa using hk
      have hv : v₀ = v := by
        simpa [alistGet, List.find?, hk] using h
      subst hke
      subst hv
      simp [alistGet, List.find?, hf (k₀, v₀), hk]
    · have h' : alistGet rest k = some v := by
        simpa [alistGet, List.find?, hk] using h
      have := ih h'
      simpa [alistGet, List.find?, hf (k₀, v₀), hk] using this

namespace TranscriptWatcher

/-- Main phase: the offset never shrinks and the subagent table is
untouched. -/
theorem pollMain_mono (decodeLine : List Char → Option LogEntry)
    (cid : String) (st : WatchState) (fs : WatchFS) :
    st.main_position ≤ (pollMain decodeLine cid st fs).1.main_position ∧
    (pollMain decodeLine cid st fs).1.subagent_positions =
      st.subagent_positions ∧
    (pollMain decodeLine cid st fs).1.session_id = st.session_id := by
  unfold pollMain
  cases fs.main with
  | none => exact ⟨le_refl _, rfl, rfl⟩
  | some content =>
    dsimp only
    by_cases h : content.length > st.main_position
    · rw [if_pos h]
      exact ⟨le_of_lt h, rfl, rfl⟩
    · rw [if_neg h]
      exact ⟨le_refl _, rfl, rfl⟩

/-- Discovery phase: existing offsets are preserved, the rest of the state
untouched. -/
theorem discover_mono (st : WatchState) (fs : WatchFS) :
    (discover st fs).main_position = st.main_position ∧
    (discover st fs).session_id = st.session_id ∧
    ∀ aid p, alistGet st.subagent_positions aid = some p →
      alistGet (discover st fs).subagent_positions aid = some p := by
  unfold discover
  cases hd : fs.subagentsDir with
  | none => exact ⟨rfl, rfl, fun _ _ h => h⟩
  | some entries =>
    refine ⟨rfl, rfl, ?_⟩
    intro aid p h
    dsimp only
    suffices hs : ∀ (ens : List (String × List Char))
        (ps : List (String × Nat)), alistGet ps aid = some p →
        alistGet (ens.foldl
          (fun (ps : List (String × Nat)) (en : String × List Char) =>
            if (alistGet ps en.1).isSome then ps else ps ++ [(en.1, 0)])
          ps) aid = some p by
      exact hs entries _ h
    intro ens
    induction ens with
    | nil => intro ps h2; exact h2
    | cons en rest ih =>
      intro ps h2
      simp only [List.foldl_cons]
      by_cases he : (alistGet ps en.1).isSome
      · rw [if_pos he]
        exact ih _ h2
      · rw [if_neg he]
        exact ih _ (alistGet_append_left _ _ _ _ h2)

/-- The tracked-offsets component of the subagent fold: every entry is
rewritten in place by the per-entry offset update. -/
theorem subFold_positions (decodeLine : List Char → Option LogEntry)
    (cid sess : String) (fsd : List (String × List Char)) :
    ∀ (aps ps0 : List (String × Nat)) (ext : TaskStateExtractor)
      (bs : List BroadcastMsg),
      (aps.foldl (subStep decodeLine cid sess fsd) (ps0, ext, bs)).1 =
        ps0 ++ aps.map (fun ap =>
          match fsd.find? (fun en => en.1 == ap.1) with
          | some en => if en.2.length > ap.2 then (ap.1, en.2.length) else ap
          | none => ap) := by
  intro aps
  induction aps with
  | nil => intro ps0 ext bs; simp
  | cons ap rest ih =>
    intro ps0 ext bs
    simp only [List.foldl_cons, List.map_cons]
    cases hf : fsd.find? (fun en => en.1 == ap.1) with
    | some en =>
      by_cases hg : en.2.length > ap.2
      · simp only [subStep, hf, hg, if_true]
        rw [ih]
        simp
      · simp only [subStep, hf, hg, if_false]
        rw [ih]
        simp
    | none =>
      simp only [subStep, hf]
      rw [ih]
      simp

/-- Subagent phase: every tracked offset is preserved or grows, the rest of
the state untouched. -/
theorem pollSubs_mono (decodeLine : List Char → Option LogEntry)
    (cid : String) (st : WatchState) (fs : WatchFS) :
    (pollSubs decodeLine cid st fs).1.main_position = st.main_position ∧
    ∀ aid p, alistGet st.subagent_positions aid = some p →
      ∃ p', alistGet
        (pollSubs decodeLine cid st fs).1.subagent_positions aid =
          some p' ∧ p ≤ p' := by
  constructor
  · rfl
  · intro aid p h
    have hpos : (pollSubs decodeLine cid st fs).1.subagent_positions =
        st.subagent_positions.map (fun ap =>
          match (fs.subagentsDir.getD []).find? (fun en => en.1 == ap.1) with
          | some en => if en.2.length > ap.2 then (ap.1, en.2.length) else ap
          | none => ap) := by
      show (st.subagent_positions.foldl
        (subStep decodeLine cid st.session_id (fs.subagentsDir.getD []))
        ([], st.extractor, [])).1 = _
      rw [subFold_positions]
      simp
    rw [hpos]
    have hf : ∀ pr : String × Nat,
        (match (fs.subagentsDir.getD []).find?
            (fun (en : String × List Char) => en.1 == pr.1) with
          | some en => if en.2.length > pr.2 then (pr.1, en.2.length) else pr
          | none => pr).1 = pr.1 := by
      intro pr
      cases hfd : (fs.subagentsDir.getD []).find?
          (fun (en : String × List Char) => en.1 == pr.1) with
      | some en =>
        simp only [hfd]
        by_cases hg : en.2.length > pr.2
        · rw [if_pos hg]
        · rw [if_neg hg]
      | none => simp only [hfd]
    refine ⟨_, alistGet_map_entry _ hf st.subagent_positions aid p h, ?_⟩
    cases hfd : (fs.subagentsDir.getD []).find? (fun en => en.1 == aid) with
    | some en =>
      by_cases hg : en.2.length > p <;> simp [hfd, hg]
      · exact le_of_lt hg
    | none => simp [hfd]

/-- One poll of a watch: the main offset and every tracked subagent offset
are monotonically non-decreasing. -/
theorem pollWatch_mono (decodeLine : List Char → Option LogEntry)
    (cid : String) (st : WatchState) (fs : WatchFS) :
    st.main_position ≤ (pollWatch decodeLine cid st fs).1.main_position ∧
    ∀ aid p, alistGet st.subagent_positions aid = some p →
      ∃ p', alistGet
        (pollWatch decodeLine cid st fs).1.subagent_positions aid =
          some p' ∧ p ≤ p' := by
  have h1 := pollMain_mono decodeLine cid st fs
  have h2 := discover_mono (pollMain decodeLine cid st fs).1 fs
  have h3 := pollSubs_mono decodeLine cid
    (discover (pollMain decodeLine cid st fs).1 fs) fs
  constructor
  · show st.main_position ≤ (pollSubs decodeLine cid
      (discover (pollMain decodeLine cid st fs).1 fs) fs).1.main_position
    rw [h3.1, h2.1]
    exact h1.1
  · intro aid p h
    have ha : alistGet
        (discover (pollMain decodeLine cid st fs).1 fs).subagent_positions
        aid = some p := by
      apply h2.2.2
      rw [h1.2.1]
      exact h
    exact h3.2 aid p ha

/-- C7: over every sequence of polling iterations of a watch, the tracked
byte offset of the main log never decreases and the tracked offset of every
child log never decreases (nor is its entry lost). -/
theorem transcript_offsets_monotone (decodeLine : List Char → Option LogEntry)
    (cid : String) (st : WatchState) (fss : List WatchFS) :
    st.main_position ≤
      (fss.foldl (fun s fs => (pollWatch decodeLine cid s fs).1)
        st).main_position ∧
    ∀ aid p, alistGet st.subagent_positions aid = some p →
      ∃ p', alistGet
        (fss.foldl (fun s fs => (pollWatch decodeLine cid s fs).1)
          st).subagent_positions aid = some p' ∧ p ≤ p' := by
  induction fss generalizing st with
  | nil => exact ⟨le_refl _, fun aid p h => ⟨p, h, le_refl p⟩⟩
  | cons fs rest ih =>
    have h1 := pollWatch_mono decodeLine cid st fs
    have h2 := ih (pollWatch decodeLine cid st fs).1
    constructor
    · exact le_trans h1.1 h2.1
    · intro aid p h
      obtain ⟨p', hget, hle⟩ := h1.2 aid p h
      obtain ⟨p'', hget', hle'⟩ := h2.2 aid p' hget
      exact ⟨p'', hget', le_trans hle hle'⟩

/-- Placeholder message, never reached under the well-formedness
hypotheses. -/
def defaultMsg : TranscriptMessage :=
  { id := "", timestamp := none, role := "", session_id := "",
    agent_id := none, content := [], text := "", tool_calls := [] }

theorem splitLines_ne_nil (cs : List Char) : splitLines cs ≠ [] := by
  induction cs with
  | nil => simp [splitLines]
  | cons c rest ih =>
    by_cases h : c = '\n'
    · simp [splitLines, h]
    · simp only [splitLines, h, if_false, Bool.false_eq_true]
      cases hs : splitLines rest with
      | nil => exact absurd hs ih
      | cons l ls => simp

theorem splitLines_cons_of_ne (c : Char) (cs : List Char)
    (hc : ¬ c = '\n') :
    splitLines (c :: cs) =
      match splitLines cs with
      | l :: ls => (c :: l) :: ls
      | [] => [[c]] := by
  simp [splitLines, hc]

theorem splitLines_line (l : List Char) (t : List Char) (hl : '\n' ∉ l) :
    splitLines (l ++ '\n' :: t) = l :: splitLines t := by
  induction l with
  | nil => simp [splitLines]
  | cons c l' ih =>
    have hc : ¬ c = '\n' := fun he => hl (he ▸ List.mem_cons_self c l')
    have hl' : '\n' ∉ l' := fun hm => hl (List.mem_cons_of_mem c hm)
    rw [List.cons_append, splitLines_cons_of_ne c _ hc, ih hl']

theorem splitLines_joined (lines : List (List Char))
    (hl : ∀ l ∈ lines, '\n' ∉ l) :
    splitLines ((lines.map (fun l => l ++ ['\n'])).flatten) =
      lines ++ [[]] := by
  induction lines with
  | nil => simp [splitLines]
  | cons l rest ih =>
    simp only [List.map_cons, List.flatten_cons, List.append_assoc,
      List.singleton_append]
    rw [splitLines_line l _ (hl l (List.mem_cons_self l rest))]
    rw [ih (fun x hx => hl x (List.mem_cons_of_mem l hx))]
    rfl

theorem trimChars_nil : trimChars [] = [] := rfl

/-- The byte range read by one poll over a fixed file splits back into
exactly the appended lines. -/
theorem readNewLines_appended (content : List Char)
    (lines : List (List Char))
    (hl : ∀ l ∈ lines, '\n' ∉ l ∧ trimChars l = l ∧ l ≠ []) :
    readNewLines (content ++ (lines.map (fun l => l ++ ['\n'])).flatten)
      content.length = lines := by
  unfold readNewLines
  rw [List.drop_left]
  rw [splitLines_joined lines (fun l h => (hl l h).1)]
  rw [List.map_append, List.filter_append]
  have h1 : lines.map trimChars = lines := by
    conv_rhs => rw [← List.map_id lines]
    apply List.map_congr_left
    intro l h
    exact (hl l h).2.1
  rw [h1]
  have h2 : lines.filter (fun l => decide ¬ l = []) = lines := by
    apply List.filter_eq_self.mpr
    intro l h
    simpa using (hl l h).2.2
  simp only [List.map_cons, List.map_nil, trimChars_nil]
  rw [h2]
  simp

/-- Well-formed line relative to a decoder: it decodes to a user/assistant
entry that parses to a message. -/
def WFLine (decodeLine : List Char → Option LogEntry) (l : List Char) :
    Prop :=
  ∃ e m, decodeLine l = some e ∧
    (e.type = some "user" ∨ e.type = some "assistant") ∧
    parse_entry e = some m

/-- The task-extractor fold emits only task_state_change callbacks. -/
theorem toolFold_taskState (cid sess : String)
    (tcs : List ToolUseCall) :
    ∀ (ext : TaskStateExtractor) (bs0 : List BroadcastMsg),
      (∀ b ∈ bs0, b.btype = "task_state_change") →
      ∀ b ∈ (tcs.foldl
        (fun (acc : TaskStateExtractor × List BroadcastMsg) tu =>
          let r := TaskStateExtractor.process_tool_call acc.1
            { name := tu.name, input := tu.input }
          match r.2 with
          | some ev =>
            (r.1, acc.2 ++ [BroadcastMsg.taskState cid sess ev])
          | none => (r.1, acc.2)) (ext, bs0)).2,
        b.btype = "task_state_change" := by
  induction tcs with
  | nil => intro ext bs0 h; exact h
  | cons tu rest ih =>
    intro ext bs0 h
    simp only [List.foldl_cons]
    cases hr : (TaskStateExtractor.process_tool_call ext
        { name := tu.name, input := tu.input }).2 with
    | some ev =>
      simp only [hr]
      apply ih
      intro b hb
      rcases List.mem_append.mp hb with hb | hb
      · exact h b hb
      · rw [List.mem_singleton] at hb
        subst hb
        rfl
    | none =>
      simp only [hr]
      exact ih _ _ h

/-- On a well-formed line, _parse_and_broadcast emits one
transcript_message callback carrying the parsed message, followed only by
task_state_change callbacks. -/
theorem parse_and_broadcast_wf (decodeLine : List Char → Option LogEntry)
    (l : List Char) (cid sess src : String) (ext : TaskStateExtractor)
    (hwf : WFLine decodeLine l) :
    (parse_and_broadcast decodeLine l cid sess src ext).2.filter
      (fun b => b.btype == "transcript_message") =
      [BroadcastMsg.transcript cid sess src
        (((decodeLine l).bind parse_entry).getD defaultMsg)] := by
  obtain ⟨e, m, hdec, htype, hparse⟩ := hwf
  unfold parse_and_broadcast
  rw [hdec]
  dsimp only
  rw [if_pos (by
    rcases htype with h | h
    · exact Or.inl (by rw [h])
    · exact Or.inr (by rw [h]))]
  rw [hparse]
  simp only [List.filter_cons]
  have hb : (BroadcastMsg.transcript cid sess src m).btype =
      "transcript_message" := rfl
  rw [show ((BroadcastMsg.transcript cid sess src m).btype ==
    "transcript_message") = true by rw [hb]; simp]
  have htask := toolFold_taskState cid sess m.tool_calls ext []
    (by intro b hb2; exact absurd hb2 (List.not_mem_nil b))
  have hrest : ((m.tool_calls.foldl
      (fun (acc : TaskStateExtractor × List BroadcastMsg) tu =>
        let r := TaskStateExtractor.process_tool_call acc.1
          { name := tu.name, input := tu.input }
        match r.2 with
        | some ev =>
          (r.1, acc.2 ++ [BroadcastMsg.taskState cid sess ev])
        | none => (r.1, acc.2)) (ext, [])).2.filter
      (fun b => b.btype == "transcript_message")) = [] := by
    apply List.filter_eq_nil_iff.mpr
    intro b hb2
    have := htask b hb2
    simp [this]
  rw [hrest]
  simp [hparse]

/-- Fold of _parse_and_broadcast over well-formed lines: one
transcript_message per line, in order. -/
theorem broadcastLines_transcripts (decodeLine : List Char → Option LogEntry)
    (cid sess src : String) (lines : List (List Char)) :
    ∀ (ext : TaskStateExtractor) (bs0 : List BroadcastMsg),
      (∀ l ∈ lines, WFLine decodeLine l) →
      ((lines.foldl
        (fun (acc : TaskStateExtractor × List BroadcastMsg) line =>
          let r := parse_and_broadcast decodeLine line cid sess src acc.1
          (r.1, acc.2 ++ r.2)) (ext, bs0)).2.filter
        (fun b => b.btype == "transcript_message")) =
      bs0.filter (fun b => b.btype == "transcript_message") ++
        lines.map (fun l => BroadcastMsg.transcript cid sess src
          (((decodeLine l).bind parse_entry).getD defaultMsg)) := by
  induction lines with
  | nil => intro ext bs0 _; simp
  | cons l rest ih =>
    intro ext bs0 hwf
    simp only [List.foldl_cons, List.map_cons]
    rw [ih _ _ (fun x hx => hwf x (List.mem_cons_of_mem l hx))]
    rw [List.filter_append]
    rw [parse_and_broadcast_wf decodeLine l cid sess src ext
      (hwf l (List.mem_cons_self l rest))]
    simp

/-- The transcript_message callbacks produced for a single line, read off
from _parse_and_broadcast: they depend on the line alone, never on the
extractor state. -/
def lineTranscript (decodeLine : List Char → Option LogEntry)
    (line : List Char) (changeset_id session_id source : String) :
    List BroadcastMsg :=
  match decodeLine line with
  | none => []
  | some entry =>
    if entry.type = some "user" ∨ entry.type = some "assistant" then
      match parse_entry entry with
      | none => []
      | some msg =>
        [BroadcastMsg.transcript changeset_id session_id source msg]
    else []

/-- The transcript_message callbacks of _parse_and_broadcast for one line
are exactly lineTranscript of that line, for every extractor state. -/
theorem parse_and_broadcast_filter (decodeLine : List Char → Option LogEntry)
    (l : List Char) (cid sess src : String) (ext : TaskStateExtractor) :
    (parse_and_broadcast decodeLine l cid sess src ext).2.filter
      (fun b => b.btype == "transcript_message") =
      lineTranscript decodeLine l cid sess src := by
  unfold parse_and_broadcast lineTranscript
  cases hdec : decodeLine l with
  | none => simp
  | some e =>
    dsimp only
    by_cases htype : e.type = some "user" ∨ e.type = some "assistant"
    · rw [if_pos htype, if_pos htype]
      cases hparse : parse_entry e with
      | none => simp
      | some m =>
        dsimp only
        simp only [List.filter_cons]
        rw [show ((BroadcastMsg.transcript cid sess src m).btype ==
          "transcript_message") = true from by
            have hb : (BroadcastMsg.transcript cid sess src m).btype =
              "transcript_message" := rfl
            rw [hb]; simp]
        have htask := toolFold_taskState cid sess m.tool_calls ext []
          (by intro b hb2; exact absurd hb2 (List.not_mem_nil b))
        have hrest : ((m.tool_calls.foldl
            (fun (acc : TaskStateExtractor × List BroadcastMsg) tu =>
              let r := TaskStateExtractor.process_tool_call acc.1
                { name := tu.name, input := tu.input }
              match r.2 with
              | some ev =>
                (r.1, acc.2 ++ [BroadcastMsg.taskState cid sess ev])
              | none => (r.1, acc.2)) (ext, [])).2.filter
            (fun b => b.btype == "transcript_message")) = [] := by
          apply List.filter_eq_nil_iff.mpr
          intro b hb2
          have := htask b hb2
          simp [this]
        rw [hrest]
        simp
    · rw [if_neg htype, if_neg htype]
      simp

/-- Fold of _parse_and_broadcast over any lines, with any accumulator: the
transcript_message callbacks are those of the individual lines, in order. -/
theorem lineFold_filter (decodeLine : List Char → Option LogEntry)
    (cid sess src : String) (lines : List (List Char)) :
    ∀ (ext : TaskStateExtractor) (bs0 : List BroadcastMsg),
      ((lines.foldl
        (fun (acc : TaskStateExtractor × List BroadcastMsg) line =>
          let r := parse_and_broadcast decodeLine line cid sess src acc.1
          (r.1, acc.2 ++ r.2)) (ext, bs0)).2.filter
        (fun b => b.btype == "transcript_message")) =
      bs0.filter (fun b => b.btype == "transcript_message") ++
        (lines.map (fun l =>
          lineTranscript decodeLine l cid sess src)).flatten := by
  induction lines with
  | nil => intro ext bs0; simp
  | cons l rest ih =>
    intro ext bs0
    simp only [List.foldl_cons, List.map_cons, List.flatten_cons]
    rw [ih]
    rw [List.filter_append, parse_and_broadcast_filter]
    simp [List.append_assoc]

/-- The transcript_message callbacks of one file read, for every extractor
state. -/
theorem broadcastLines_filter (decodeLine : List Char → Option LogEntry)
    (lines : List (List Char)) (cid sess src : String)
    (ext : TaskStateExtractor) :
    (broadcastLines decodeLine lines cid sess src ext).2.filter
      (fun b => b.btype == "transcript_message") =
      (lines.map
        (fun l => lineTranscript decodeLine l cid sess src)).flatten := by
  have h := lineFold_filter decodeLine cid sess src lines ext []
  simpa [broadcastLines] using h

/-- A well-formed line contributes exactly one transcript_message callback
carrying its parsed message. -/
theorem lineTranscript_wf (decodeLine : List Char → Option LogEntry)
    (l : List Char) (cid sess src : String)
    (hwf : WFLine decodeLine l) :
    lineTranscript decodeLine l cid sess src =
      [BroadcastMsg.transcript cid sess src
        (((decodeLine l).bind parse_entry).getD defaultMsg)] := by
  obtain ⟨e, m, hdec, htype, hparse⟩ := hwf
  unfold lineTranscript
  rw [hdec]
  dsimp only
  rw [if_pos (by
    rcases htype with h | h
    · exact Or.inl (by rw [h])
    · exact Or.inr (by rw [h]))]
  rw [hparse]
  simp [hparse]

theorem flatten_map_singleton {α β : Type} (f : α → β) (l : List α) :
    (l.map (fun x => [f x])).flatten = l.map f := by
  induction l with
  | nil => rfl
  | cons x rest ih => simp [ih]

theorem flatten_map_nil {α β : Type} (f : α → List β) (l : List α)
    (h : ∀ x ∈ l, f x = []) : (l.map f).flatten = [] := by
  induction l with
  | nil => rfl
  | cons x rest ih =>
    simp only [List.map_cons, List.flatten_cons,
      h x (List.mem_cons_self x rest), List.nil_append]
    exact ih (fun y hy => h y (List.mem_cons_of_mem x hy))

/-- The transcript_message callbacks contributed by one tracked subagent
entry during the reading phase of a poll. -/
def entryTranscripts (decodeLine : List Char → Option LogEntry)
    (changeset_id session_id : String) (fsd : List (String × List Char))
    (ap : String × Nat) : List BroadcastMsg :=
  match fsd.find? (fun en => en.1 == ap.1) with
  | some en =>
    if en.2.length > ap.2 then
      ((readNewLines en.2 ap.2).map
        (fun l => lineTranscript decodeLine l changeset_id session_id
          ap.1)).flatten
    else []
  | none => []

/-- The transcript_message callbacks of the subagent-reading fold are the
per-entry contributions in table order, for every extractor state. -/
theorem subFold_filter (decodeLine : List Char → Option LogEntry)
    (cid sess : String) (fsd : List (String × List Char))
    (aps : List (String × Nat)) :
    ∀ (ps0 : List (String × Nat)) (ext : TaskStateExtractor)
      (bs : List BroadcastMsg),
      ((aps.foldl (subStep decodeLine cid sess fsd)
        (ps0, ext, bs)).2.2).filter
        (fun b => b.btype == "transcript_message") =
      bs.filter (fun b => b.btype == "transcript_message") ++
        (aps.map (entryTranscripts decodeLine cid sess fsd)).flatten := by
  induction aps with
  | nil => intro ps0 ext bs; simp
  | cons ap rest ih =>
    intro ps0 ext bs
    simp only [List.foldl_cons, List.map_cons, List.flatten_cons]
    cases hf : fsd.find? (fun en => en.1 == ap.1) with
    | none =>
      have hstep : subStep decodeLine cid sess fsd (ps0, ext, bs) ap =
          (ps0 ++ [ap], ext, bs) := by
        unfold subStep
        rw [hf]
      have he : entryTranscripts decodeLine cid sess fsd ap = [] := by
        unfold entryTranscripts
        rw [hf]
      rw [hstep, ih, he]
      simp
    | some en =>
      by_cases hg : en.2.length > ap.2
      · have hstep : subStep decodeLine cid sess fsd (ps0, ext, bs) ap =
            (ps0 ++ [(ap.1, en.2.length)],
             (broadcastLines decodeLine (readNewLines en.2 ap.2) cid sess
               ap.1 ext).1,
             bs ++ (broadcastLines decodeLine (readNewLines en.2 ap.2) cid
               sess ap.1 ext).2) := by
          unfold subStep
          rw [hf]
          dsimp only
          rw [if_pos hg]
        have he : entryTranscripts decodeLine cid sess fsd ap =
            ((readNewLines en.2 ap.2).map (fun l =>
              lineTranscript decodeLine l cid sess ap.1)).flatten := by
          unfold entryTranscripts
          rw [hf]
          dsimp only
          rw [if_pos hg]
        rw [hstep, ih, List.filter_append, broadcastLines_filter, he]
        simp [List.append_assoc]
      · have hstep : subStep decodeLine cid sess fsd (ps0, ext, bs) ap =
            (ps0 ++ [ap], ext, bs) := by
          unfold subStep
          rw [hf]
          dsimp only
          rw [if_neg hg]
        have he : entryTranscripts decodeLine cid sess fsd ap = [] := by
          unfold entryTranscripts
          rw [hf]
          dsimp only
          rw [if_neg hg]
        rw [hstep, ih, he]
        simp

/-- Discovery over files that are all already tracked never touches the
offset table. -/
theorem discoverFold_tracked (ens : List (String × List Char)) :
    ∀ ps : List (String × Nat),
      (∀ en ∈ ens, (alistGet ps en.1).isSome = true) →
      ens.foldl
        (fun (ps : List (String × Nat)) (en : String × List Char) =>
          if (alistGet ps en.1).isSome then ps else ps ++ [(en.1, 0)]) ps =
        ps := by
  induction ens with
  | nil => intro ps _; rfl
  | cons en rest ih =>
    intro ps h
    simp only [List.foldl_cons]
    rw [if_pos (h en (List.mem_cons_self en rest))]
    exact ih ps (fun x hx => h x (List.mem_cons_of_mem en hx))

/-- When every subagent file on disk is already tracked, the discovery
phase leaves the offset table unchanged. -/
theorem discover_tracked (st : WatchState) (fs : WatchFS)
    (h : ∀ en ∈ fs.subagentsDir.getD [],
      (alistGet st.subagent_positions en.1).isSome = true) :
    (discover st fs).subagent_positions = st.subagent_positions := by
  unfold discover
  cases hd : fs.subagentsDir with
  | none => rfl
  | some entries =>
    dsimp only
    apply discoverFold_tracked
    intro en hen
    apply h
    rw [hd]
    simpa using hen

/-- An absent or ungrown main transcript leaves the main phase inert. -/
theorem pollMain_quiet (decodeLine : List Char → Option LogEntry)
    (cid : String) (st : WatchState) (fs : WatchFS)
    (h : ∀ c, fs.main = some c → c.length ≤ st.main_position) :
    pollMain decodeLine cid st fs = (st, []) := by
  unfold pollMain
  cases hm : fs.main with
  | none => rfl
  | some c =>
    dsimp only
    rw [if_neg (by have := h c hm; omega)]

/-- With no subagents directory, the subagent phase emits nothing. -/
theorem subFold_no_broadcast (decodeLine : List Char → Option LogEntry)
    (cid sess : String) (aps : List (String × Nat)) :
    ∀ (ps0 : List (String × Nat)) (ext : TaskStateExtractor)
      (bs : List BroadcastMsg),
      (aps.foldl (subStep decodeLine cid sess []) (ps0, ext, bs)).2.2 =
        bs := by
  induction aps with
  | nil => intro _ _ _; rfl
  | cons ap rest ih =>
    intro ps0 ext bs
    simp only [List.foldl_cons, subStep, List.find?_nil]
    exact ih _ _ _

/-- C3: appending N well-formed user/assistant lines to one watched log of
a watch — the main transcript (target none) or a tracked subagent
transcript (target some id) — strictly between two polls, with every other
log of the watch quiet (each subagent file on disk already tracked, and not
grown past its tracked offset unless it is the target), makes the next poll
issue exactly the N transcript_message callbacks of those lines, in file
order, none dropped and none duplicated. -/
theorem transcript_exactly_once (decodeLine : List Char → Option LogEntry)
    (cid : String) (st : WatchState) (fs : WatchFS)
    (content : List Char) (lines : List (List Char))
    (target : Option String)
    (hl : ∀ l ∈ lines, '\n' ∉ l ∧ trimChars l = l ∧ l ≠ [] ∧
      WFLine decodeLine l)
    (htracked : ∀ en ∈ fs.subagentsDir.getD [],
      (alistGet st.subagent_positions en.1).isSome = true)
    (hquiet : ∀ en ∈ fs.subagentsDir.getD [],
      ∀ pr ∈ st.subagent_positions, pr.1 = en.1 → some pr.1 ≠ target →
        en.2.length ≤ pr.2)
    (hmain : match target with
      | none => fs.main =
          some (content ++ (lines.map (fun l => l ++ ['\n'])).flatten) ∧
          st.main_position = content.length
      | some _ => ∀ c, fs.main = some c → c.length ≤ st.main_position)
    (htarget : match target with
      | none => True
      | some aid =>
          (st.subagent_positions.map Prod.fst).Nodup ∧
          (aid, content.length) ∈ st.subagent_positions ∧
          (fs.subagentsDir.getD []).find? (fun en => en.1 == aid) =
            some (aid,
              content ++ (lines.map (fun l => l ++ ['\n'])).flatten)) :
    ((pollWatch decodeLine cid st fs).2.filter
      (fun b => b.btype == "transcript_message")) =
      lines.map (fun l => BroadcastMsg.transcript cid st.session_id
        (target.getD "main")
        (((decodeLine l).bind parse_entry).getD defaultMsg)) := by
  have hq0 : ∀ pr ∈ st.subagent_positions, some pr.1 ≠ target →
      entryTranscripts decodeLine cid st.session_id
        (fs.subagentsDir.getD []) pr = [] := by
    intro pr hpr hne
    cases hf : (fs.subagentsDir.getD []).find?
        (fun en => en.1 == pr.1) with
    | none => simp [entryTranscripts, hf]
    | some en =>
      have hmemd : en ∈ fs.subagentsDir.getD [] :=
        List.mem_of_find?_eq_some hf
      have hpred := List.find?_some hf
      have hkey : pr.1 = en.1 := by
        have h2 : en.1 = pr.1 := by simpa using hpred
        exact h2.symm
      have hle := hquiet en hmemd pr hpr hkey hne
      have hng : ¬ en.2.length > pr.2 := by omega
      simp [entryTranscripts, hf, hng]
  show ((pollMain decodeLine cid st fs).2 ++
      (pollSubs decodeLine cid
        (discover (pollMain decodeLine cid st fs).1 fs) fs).2).filter
      (fun b => b.btype == "transcript_message") = _
  rw [List.filter_append]
  cases target with
  | none =>
    have hm2 : fs.main =
        some (content ++ (lines.map (fun l => l ++ ['\n'])).flatten) ∧
        st.main_position = content.length := hmain
    have hread : readNewLines
        (content ++ (lines.map (fun l => l ++ ['\n'])).flatten)
        st.main_position = lines := by
      rw [hm2.2]
      exact readNewLines_appended content lines
        (fun l h => ⟨(hl l h).1, (hl l h).2.1, (hl l h).2.2.1⟩)
    -- main phase result
    have h1 : (pollMain decodeLine cid st fs).2.filter
        (fun b => b.btype == "transcript_message") =
        lines.map (fun l => BroadcastMsg.transcript cid st.session_id
          "main" (((decodeLine l).bind parse_entry).getD defaultMsg)) := by
      unfold pollMain
      rw [hm2.1]
      dsimp only
      by_cases hgrow : (content ++
          (lines.map (fun l => l ++ ['\n'])).flatten).length >
          st.main_position
      · rw [if_pos hgrow]
        dsimp only
        rw [hread]
        have := broadcastLines_transcripts decodeLine cid st.session_id
          "main" lines st.extractor [] (fun l h => (hl l h).2.2.2)
        simpa [broadcastLines] using this
      · rw [if_neg hgrow]
        -- no growth forces an empty append, hence no lines
        have hlen : (lines.map (fun l => l ++ ['\n'])).flatten.length =
            0 := by
          simp only [List.length_append, gt_iff_lt, not_lt, hm2.2]
            at hgrow
          omega
        cases hcase : lines with
        | nil => simp
        | cons l rest =>
          exfalso
          rw [hcase] at hlen
          simp only [List.map_cons, List.flatten_cons, List.length_append,
            List.length_singleton] at hlen
          omega
    -- subagent phase emits no transcript_message callback
    have hps1 : (pollMain decodeLine cid st fs).1.subagent_positions =
        st.subagent_positions := (pollMain_mono decodeLine cid st fs).2.1
    have hsess1 : (pollMain decodeLine cid st fs).1.session_id =
        st.session_id := (pollMain_mono decodeLine cid st fs).2.2
    have htracked1 : ∀ en ∈ fs.subagentsDir.getD [],
        (alistGet (pollMain decodeLine cid st fs).1.subagent_positions
          en.1).isSome = true := by
      intro en hen
      rw [hps1]
      exact htracked en hen
    have hps2 : (discover (pollMain decodeLine cid st fs).1
        fs).subagent_positions = st.subagent_positions := by
      rw [discover_tracked _ fs htracked1, hps1]
    have hsess2 : (discover (pollMain decodeLine cid st fs).1
        fs).session_id = st.session_id := by
      rw [(discover_mono _ fs).2.1, hsess1]
    have h3 : ((pollSubs decodeLine cid
        (discover (pollMain decodeLine cid st fs).1 fs) fs).2).filter
        (fun b => b.btype == "transcript_message") = [] := by
      show ((((discover (pollMain decodeLine cid st fs).1
          fs).subagent_positions).foldl
        (subStep decodeLine cid
          (discover (pollMain decodeLine cid st fs).1 fs).session_id
          (fs.subagentsDir.getD []))
        ([], (discover (pollMain decodeLine cid st fs).1 fs).extractor,
          [])).2.2).filter (fun b => b.btype == "transcript_message") = []
      rw [hps2, hsess2, subFold_filter]
      simp only [List.filter_nil, List.nil_append]
      exact flatten_map_nil _ st.subagent_positions
        (fun pr hpr => hq0 pr hpr (fun h => Option.noConfusion h))
    rw [h1, h3, List.append_nil]
    rfl
  | some aid =>
    have hm2 : ∀ c, fs.main = some c → c.length ≤ st.main_position := hmain
    have ht2 : (st.subagent_positions.map Prod.fst).Nodup ∧
        (aid, content.length) ∈ st.subagent_positions ∧
        (fs.subagentsDir.getD []).find? (fun en => en.1 == aid) =
          some (aid,
            content ++ (lines.map (fun l => l ++ ['\n'])).flatten) :=
      htarget
    obtain ⟨hnd, hmem, hfind⟩ := ht2
    have hpm : pollMain decodeLine cid st fs = (st, []) :=
      pollMain_quiet decodeLine cid st fs hm2
    rw [hpm]
    dsimp only
    simp only [List.filter_nil, List.nil_append]
    have hps2 : (discover st fs).subagent_positions =
        st.subagent_positions := discover_tracked st fs htracked
    have hsess2 : (discover st fs).session_id = st.session_id :=
      (discover_mono st fs).2.1
    show ((((discover st fs).subagent_positions).foldl
        (subStep decodeLine cid (discover st fs).session_id
          (fs.subagentsDir.getD []))
        ([], (discover st fs).extractor, [])).2.2).filter
        (fun b => b.btype == "transcript_message") = _
    rw [hps2, hsess2, subFold_filter]
    simp only [List.filter_nil, List.nil_append]
    obtain ⟨pre, post, hsplit⟩ := List.append_of_mem hmem
    have hndk := hnd
    rw [hsplit, List.map_append, List.map_cons, List.nodup_append] at hndk
    obtain ⟨hnd1, hnd2, hdisj⟩ := hndk
    have hpre : ∀ pr ∈ pre, pr.1 ≠ aid := by
      intro pr hpr he
      exact hdisj (List.mem_map.mpr ⟨pr, hpr, rfl⟩)
        (he ▸ List.mem_cons_self aid (post.map Prod.fst))
    have hpost : ∀ pr ∈ post, pr.1 ≠ aid := by
      intro pr hpr he
      exact (List.nodup_cons.mp hnd2).1
        (he ▸ List.mem_map.mpr ⟨pr, hpr, rfl⟩)
    rw [hsplit, List.map_append, List.map_cons, List.flatten_append,
      List.flatten_cons]
    have hprenil : (pre.map (entryTranscripts decodeLine cid st.session_id
        (fs.subagentsDir.getD []))).flatten = [] :=
      flatten_map_nil _ pre (fun pr hpr =>
        hq0 pr (by rw [hsplit]; exact List.mem_append_left _ hpr)
          (fun h => hpre pr hpr (Option.some_inj.mp h)))
    have hpostnil : (post.map (entryTranscripts decodeLine cid
        st.session_id (fs.subagentsDir.getD []))).flatten = [] :=
      flatten_map_nil _ post (fun pr hpr =>
        hq0 pr (by
            rw [hsplit]
            exact List.mem_append_right _ (List.mem_cons_of_mem _ hpr))
          (fun h => hpost pr hpr (Option.some_inj.mp h)))
    have hmid : entryTranscripts decodeLine cid st.session_id
        (fs.subagentsDir.getD []) (aid, content.length) =
        lines.map (fun l => BroadcastMsg.transcript cid st.session_id aid
          (((decodeLine l).bind parse_entry).getD defaultMsg)) := by
      cases hcase : lines with
      | nil =>
        rw [hcase] at hfind
        simp [entryTranscripts, hfind]
      | cons l0 rest =>
        rw [hcase] at hfind
        have hg : (content ++
            ((l0 :: rest).map (fun l => l ++ ['\n'])).flatten).length >
            content.length := by
          simp only [List.map_cons, List.flatten_cons, List.length_append,
            List.length_singleton]
          omega
        have hread2 : readNewLines (content ++
            ((l0 :: rest).map (fun l => l ++ ['\n'])).flatten)
            content.length = l0 :: rest := by
          rw [← hcase]
          exact readNewLines_appended content lines
            (fun l h => ⟨(hl l h).1, (hl l h).2.1, (hl l h).2.2.1⟩)
        simp only [entryTranscripts]
        rw [hfind]
        dsimp only
        rw [if_pos hg, hread2]
        have hmapwf : (l0 :: rest).map (fun l =>
            lineTranscript decodeLine l cid st.session_id aid) =
            (l0 :: rest).map (fun l =>
              [BroadcastMsg.transcript cid st.session_id aid
                (((decodeLine l).bind parse_entry).getD defaultMsg)]) := by
          apply List.map_congr_left
          intro l hml
          apply lineTranscript_wf
          have hlm : l ∈ lines := by rw [hcase]; exact hml
          exact (hl l hlm).2.2.2
        rw [hmapwf, flatten_map_singleton (fun l =>
          BroadcastMsg.transcript cid st.session_id aid
            (((decodeLine l).bind parse_entry).getD defaultMsg))
          (l0 :: rest)]
    rw [hprenil, hpostnil, hmid]
    simp

end TranscriptWatcher

/-- Concrete decoder for the C3 witness: two known lines, one user and one
assistant. -/
def w3decode : List Char → Option TranscriptWatcher.LogEntry := fun l =>
  if l = "u1".toList then
    some { type := some "user",
           message_content := some (Sum.inl "hi") }
  else if l = "a1".toList then
    some { type := some "assistant",
           message_content :=
             some (Sum.inr [TranscriptWatcher.ContentBlock.text "ok"]) }
  else none

/-- The two appended lines of the C3 witness. -/
def w3lines : List (List Char) := ["u1".toList, "a1".toList]

/-- Prior content of the watched log in the C3 witness. -/
def w3content : List Char := "old\n".toList

/-- Watch state of the C3 witness, offset at the end of the prior content,
with one tracked child log. -/
def w3st : TranscriptWatcher.WatchState :=
  { session_id := "s", main_position := 4,
    subagent_positions := [("a9", 3)] }

/-- Snapshot of the C3 witness after both lines were appended to the main
log; the tracked child log is on disk and unchanged. -/
def w3fs : TranscriptWatcher.WatchFS :=
  { main := some (w3content ++
      (w3lines.map (fun l => l ++ ['\n'])).flatten)
    subagentsDir := some [("a9", "ab\n".toList)] }

/-- Well-formedness of the two witness lines. -/
theorem w3lines_wf : ∀ l ∈ w3lines, '\n' ∉ l ∧
    TranscriptWatcher.trimChars l = l ∧ l ≠ [] ∧
    TranscriptWatcher.WFLine w3decode l := by
  intro l hlm
  rcases List.mem_cons.mp hlm with rfl | hlm2
  · refine ⟨by decide, by decide, by decide,
      ⟨{ type := some "user", message_content := some (Sum.inl "hi") },
       { id := "", timestamp := none, role := "user", session_id := "",
         agent_id := none,
         content := [TranscriptWatcher.ContentBlock.text "hi"],
         text := "hi", tool_calls := [] },
       by decide, Or.inl (by decide), by decide⟩⟩
  rcases List.mem_cons.mp hlm2 with rfl | hlm3
  · refine ⟨by decide, by decide, by decide,
      ⟨{ type := some "assistant",
         message_content :=
           some (Sum.inr [TranscriptWatcher.ContentBlock.text "ok"]) },
       { id := "", timestamp := none, role := "assistant", session_id := "",
         agent_id := none,
         content := [TranscriptWatcher.ContentBlock.text "ok"],
         text := "ok", tool_calls := [] },
       by decide, Or.inr (by decide), by decide⟩⟩
  · exact absurd hlm3 (List.not_mem_nil l)

/-- Witness for the C3 theorem on the two-line fixture: the appended log is
the main transcript, and a tracked child log is present but unchanged. -/
theorem transcript_exactly_once_witness :
    (∀ l ∈ w3lines, '\n' ∉ l ∧ TranscriptWatcher.trimChars l = l ∧
      l ≠ [] ∧ TranscriptWatcher.WFLine w3decode l) ∧
    (∀ en ∈ w3fs.subagentsDir.getD [],
      (alistGet w3st.subagent_positions en.1).isSome = true) ∧
    (∀ en ∈ w3fs.subagentsDir.getD [],
      ∀ pr ∈ w3st.subagent_positions, pr.1 = en.1 →
        some pr.1 ≠ (none : Option String) → en.2.length ≤ pr.2) ∧
    (w3fs.main = some (w3content ++
      (w3lines.map (fun l => l ++ ['\n'])).flatten) ∧
      w3st.main_position = w3content.length) ∧
    ((TranscriptWatcher.pollWatch w3decode "c1" w3st w3fs).2.filter
      (fun b => b.btype == "transcript_message")) =
      w3lines.map (fun l => TranscriptWatcher.BroadcastMsg.transcript "c1"
        w3st.session_id ((none : Option String).getD "main")
        (((w3decode l).bind TranscriptWatcher.parse_entry).getD
          TranscriptWatcher.defaultMsg)) :=
  ⟨w3lines_wf, by decide, by decide, ⟨rfl, by decide⟩,
    TranscriptWatcher.transcript_exactly_once w3decode "c1" w3st w3fs
      w3content w3lines none w3lines_wf (by decide) (by decide)
      ⟨rfl, by decide⟩ trivial⟩

/-- Fixture state for the C7 witness: main offset 5, one tracked subagent at
offset 3. -/
def w7st : TranscriptWatcher.WatchState :=
  { session_id := "sess", main_position := 5,
    subagent_positions := [("a1", 3)] }

/-- Fixture snapshot for the C7 witness: the main file grew to 9 units and
the subagent file to 7. -/
def w7fs : TranscriptWatcher.WatchFS :=
  { main := some "ninechars".toList
    subagentsDir := some [("a1", "seven c".toList)] }

/- Embedding of changeset_tracker.py (the StateReconciler).  The wall clock
and datetime.fromisoformat are explicit parameters; uuid4 is a counter
stamped into fresh ids, consumed once per decision exactly as the eagerly
evaluated dict.get default is. -/

/-- Result of opening and json-parsing one file. -/
inductive FileRead (α : Type) where
  | absent : FileRead α
  | unreadable : FileRead α
  | parsed (a : α) : FileRead α
deriving DecidableEq, Repr

/-- Artifact entry of a manifest ({'name': ...}). -/
structure ArtifactEntry where
  name : Option String := none
deriving DecidableEq, Repr

/-- Decision entry of a manifest. -/
structure DecisionEntry where
  id : Option String := none
  domain : Option String := none
  decision : Option String := none
  rationale : Option String := none
deriving DecidableEq, Repr

/-- Typed view of a parsed changeset.json, one optional field per key the
loader reads. -/
structure Manifest where
  changeset_id : Option String := none
  current_phase : Option String := none
  phase : Option String := none
  current_domain : Option String := none
  artifacts : List ArtifactEntry := []
  decisions : List DecisionEntry := []
  domains_involved : List String := []
  original_request : Option String := none
  handoff_count : Option Nat := none
  session_id : Option String := none
deriving DecidableEq, Repr

/-- Nested source/target object of a handoff file ({'plugin','skill'}). -/
structure PluginSkill where
  plugin : Option String := none
  skill : Option String := none
deriving DecidableEq, Repr

/-- Typed view of a parsed handoff_*.json in any of the supported shapes. -/
structure HandoffJson where
  source_domain : Option String := none
  source : Option PluginSkill := none
  from_domain : Option String := none
  target_domain : Option String := none
  target : Option PluginSkill := none
  to_domain : Option String := none
  source_agent : Option String := none
  target_agent : Option String := none
  id : Option String := none
  timestamp : Option String := none
  session_id : Option String := none
  context : List (String × JVal) := []
  status : Option String := none
deriving DecidableEq, Repr

/-- Python `a or b` for a string with a fallback: an absent or empty value
falls through. -/
def orStr (o : Option String) (alt : String) : String :=
  match o with
  | some s => if s = "" then alt else s
  | none => alt

/-- Python `a or b` between two optional strings. -/
def orOpt (a b : Option String) : Option String :=
  match a with
  | some s => if s = "" then b else some s
  | none => b

/-- In-memory ChangesetInfo of models.py (datetimes as ticks). -/
structure ChangesetInfo where
  changeset_id : String
  started_at : Nat
  phase : String := "active"
  current_domain : Option String := none
  current_agent : Option String := none
  events : List ConversationEvent := []
  handoffs : List (String × String × String × Nat) := []
  artifacts : List String := []
  project_path : Option FsPath := none
  domains_involved : List String := []
  original_request : String := ""
  handoff_count : Nat := 0
  session_id : Option String := none
deriving DecidableEq, Repr

/-- In-memory HandoffInfo of models.py. -/
structure HandoffInfo where
  id : String
  timestamp : Nat
  changeset_id : String
  source_domain : String
  target_domain : String
  source_agent : Option String := none
  target_agent : Option String := none
  context : List (String × JVal) := []
  status : String := "pending"
deriving DecidableEq, Repr

/-- One entry of a project's changesets directory as the tracker reads it:
the directory name, its changeset.json, the handoff_*.json files in listdir
order, and the artifacts/ listing when that directory exists. -/
structure TrackerCsDir where
  name : String
  isDir : Bool := true
  manifest : FileRead Manifest := FileRead.absent
  handoffFiles : List (String × FileRead HandoffJson) := []
  artifactsDir : Option (List String) := none
deriving DecidableEq, Repr

/-- A project root and its .claude/changesets listing for the tracker. -/
structure TrackerProject where
  path : FsPath
  changesets : Option (List TrackerCsDir) := none
deriving DecidableEq, Repr

/-- Filesystem snapshot seen by one scan. -/
abbrev TrackerFS := List TrackerProject

/-- Changesets listing of a project in the snapshot. -/
def trackerFsChangesets (fs : TrackerFS) (proj : FsPath) :
    Option (List TrackerCsDir) :=
  (fs.find? (fun d => d.path == proj)).bind (fun d => d.changesets)

/-- State of ChangesetTracker. -/
structure ChangesetTracker where
  project_paths : List FsPath
  changesets : List (String × ChangesetInfo) := []
  handoffs : List HandoffInfo := []
deriving DecidableEq, Repr

namespace ChangesetTracker

/-- Mutable slice of the tracker threaded through a scan, with the uuid
counter. -/
structure ScanState where
  changesets : List (String × ChangesetInfo) := []
  handoffs : List HandoffInfo := []
  seed : Nat := 0
deriving DecidableEq, Repr

/-- Optional string stored into a decision event's content. -/
def encodeOptStr : Option String → JVal
  | some s => JVal.jstr s
  | none => JVal.jnull0

/-- Translation of ChangesetTracker._load_changeset_file on a parsed
manifest: get-or-create the changeset (fresh ones start at the clock
reading), overwrite the scalar fields, dedupe-append the manifest artifacts,
append one decision_made event per decision (the uuid default of the id is
consumed per decision), and replace the remaining fields. -/
def loadChangesetFile (now : Nat) (proj : FsPath) (dirname : String)
    (m : Manifest) (s : ScanState) : ScanState :=
  let cid := m.changeset_id.getD dirname
  let base : ChangesetInfo :=
    match alistGet s.changesets cid with
    | some c => c
    | none => { changeset_id := cid, started_at := now }
  let c1 := { base with
    phase := m.current_phase.getD (m.phase.getD "active")
    current_domain := m.current_domain
    project_path := some proj }
  let arts := m.artifacts.foldl
    (fun acc a =>
      let name := a.name.getD ""
      if name ≠ "" ∧ name ∉ acc then acc ++ [name] else acc)
    c1.artifacts
  let c2 := { c1 with artifacts := arts }
  let r := m.decisions.foldl
    (fun (acc : List ConversationEvent × Nat) d =>
      (acc.1 ++ [{ id := d.id.getD ("uuid-" ++ toString acc.2)
                   timestamp := c2.started_at
                   changeset_id := cid
                   event_type := "decision_made"
                   domain := d.domain
                   content := [("decision", encodeOptStr d.decision),
                               ("rationale", encodeOptStr d.rationale)] }],
       acc.2 + 1))
    (c2.events, s.seed)
  let c3 := { c2 with
    events := r.1
    domains_involved := m.domains_involved
    original_request := m.original_request.getD ""
    handoff_count := m.handoff_count.getD 0
    session_id := m.session_id }
  { s with changesets := alistSet s.changesets cid c3, seed := r.2 }

/-- Translation of ChangesetTracker._load_handoff_files: per parsed file,
the multi-shape fallback chains; a timestamp that fails to parse skips the
file; a missing timestamp defaults to the clock reading. -/
def loadHandoffFiles (parseIso : String → Option Nat) (now : Nat)
    (dirname : String) (files : List (String × FileRead HandoffJson))
    (s : ScanState) : ScanState :=
  files.foldl
    (fun s f =>
      match f.2 with
      | FileRead.parsed h =>
        let ts? := match h.timestamp with
          | some str => parseIso str
          | none => some now
        match ts? with
        | none => s
        | some ts =>
          { s with handoffs := s.handoffs ++ [{
              id := h.id.getD f.1
              timestamp := ts
              changeset_id := h.session_id.getD dirname
              source_domain := orStr h.source_domain
                (orStr (h.source.bind (fun x => x.plugin))
                  (orStr h.from_domain "pm"))
              target_domain := orStr h.target_domain
                (orStr (h.target.bind (fun x => x.plugin))
                  (orStr h.to_domain "unknown"))
              source_agent := orOpt h.source_agent
                (h.source.bind (fun x => x.skill))
              target_agent := orOpt h.target_agent
                (h.target.bind (fun x => x.skill))
              context := h.context
              status := h.status.getD "completed" }] }
      | _ => s)
    s

/-- Translation of ChangesetTracker._load_artifacts: looked up by directory
name; absent changesets and absent artifacts directories are skipped. -/
def loadArtifacts (dirname : String) (listing : Option (List String))
    (s : ScanState) : ScanState :=
  match listing with
  | none => s
  | some files =>
    match alistGet s.changesets dirname with
    | none => s
    | some c =>
      let arts := files.foldl
        (fun acc f => if f ∉ acc then acc ++ [f] else acc) c.artifacts
      { s with changesets :=
          alistSet s.changesets dirname { c with artifacts := arts } }

/-- Per-directory body of _scan_changesets_directory: non-directories are
skipped; an existing manifest is loaded when it parses, then the handoff
files and the artifacts listing. -/
def scanEntry (parseIso : String → Option Nat) (now : Nat) (proj : FsPath)
    (s : ScanState) (d : TrackerCsDir) : ScanState :=
  if d.isDir then
    let s1 := match d.manifest with
      | FileRead.parsed m => loadChangesetFile now proj d.name m s
      | _ => s
    let s2 := loadHandoffFiles parseIso now d.name d.handoffFiles s1
    loadArtifacts d.name d.artifactsDir s2
  else s

/-- Per-project loop of scan: projects without a changesets directory are
skipped. -/
def scanProject (parseIso : String → Option Nat) (now : Nat)
    (fs : TrackerFS) (s : ScanState) (proj : FsPath) : ScanState :=
  match trackerFsChangesets fs proj with
  | some entries => entries.foldl (scanEntry parseIso now proj) s
  | none => s

/-- Translation of ChangesetTracker.scan: clear the in-memory model, then
walk every project path. -/
def scan (parseIso : String → Option Nat) (t : ChangesetTracker)
    (fs : TrackerFS) (now : Nat) (seed : Nat) : ChangesetTracker :=
  let s := t.project_paths.foldl (scanProject parseIso now fs)
    { changesets := [], handoffs := [], seed := seed }
  { t with changesets := s.changesets, handoffs := s.handoffs }

/-- Changeset ids materialized from disk: one per parsed manifest of a
changeset directory of a scanned project. -/
def diskManifestIds (fs : TrackerFS) (projects : List FsPath) :
    List String :=
  (projects.map (fun p =>
    match trackerFsChangesets fs p with
    | some entries => entries.filterMap (fun d =>
        if d.isDir then
          match d.manifest with
          | FileRead.parsed m => some (m.changeset_id.getD d.name)
          | _ => none
        else none)
    | none => [])).flatten

end ChangesetTracker

namespace ChangesetTracker

/-- The handoff loader never touches the changesets map. -/
theorem loadHandoffFiles_changesets (parseIso : String → Option Nat)
    (now : Nat) (dirname : String)
    (files : List (String × FileRead HandoffJson)) :
    ∀ s : ScanState,
      (loadHandoffFiles parseIso now dirname files s).changesets =
        s.changesets := by
  induction files with
  | nil => intro s; rfl
  | cons f rest ih =>
    intro s
    show (loadHandoffFiles parseIso now dirname rest _).changesets = _
    rw [ih]
    cases hf : f.2 with
    | parsed h =>
      simp only [hf]
      cases hts : (match h.timestamp with
        | some str => parseIso str
        | none => some now) with
      | none => rfl
      | some ts => rfl
    | absent => simp [hf]
    | unreadable => simp [hf]

/-- The artifact loader never introduces a changeset key. -/
theorem loadArtifacts_none (dirname : String) (listing : Option (List String))
    (s : ScanState) (cid : String)
    (h : alistGet s.changesets cid = none) :
    alistGet (loadArtifacts dirname listing s).changesets cid = none := by
  unfold loadArtifacts
  cases listing with
  | none => exact h
  | some files =>
    cases hg : alistGet s.changesets dirname with
    | none => exact h
    | some c =>
      have hne : dirname ≠ cid := by
        intro he
        rw [he, h] at hg
        cases hg
      dsimp only
      rw [alistGet_alistSet_other _ _ _ _ hne]
      exact h

/-- The manifest loader only introduces its own changeset id. -/
theorem loadChangesetFile_none (now : Nat) (proj : FsPath)
    (dirname : String) (m : Manifest) (s : ScanState) (cid : String)
    (h : alistGet s.changesets cid = none)
    (hne : cid ≠ m.changeset_id.getD dirname) :
    alistGet (loadChangesetFile now proj dirname m s).changesets cid =
      none := by
  unfold loadChangesetFile
  dsimp only
  rw [alistGet_alistSet_other _ _ _ _ (Ne.symm hne)]
  exact h

/-- A directory whose manifest does not materialize the id leaves the id
absent. -/
theorem scanEntry_none (parseIso : String → Option Nat) (now : Nat)
    (proj : FsPath) (d : TrackerCsDir) (s : ScanState) (cid : String)
    (h : alistGet s.changesets cid = none)
    (hne : ¬ (d.isDir = true ∧ ∃ m, d.manifest = FileRead.parsed m ∧
      cid = m.changeset_id.getD d.name)) :
    alistGet (scanEntry parseIso now proj s d).changesets cid = none := by
  unfold scanEntry
  by_cases hd : d.isDir = true
  · rw [if_pos hd]
    dsimp only
    apply loadArtifacts_none
    rw [loadHandoffFiles_changesets]
    cases hm : d.manifest with
    | parsed m =>
      apply loadChangesetFile_none _ _ _ _ _ _ h
      intro he
      exact hne ⟨hd, m, hm, he⟩
    | absent => exact h
    | unreadable => exact h
  · rw [if_neg hd]
    exact h

/-- Fold of scanEntry over a directory listing that cannot materialize the
id leaves the id absent. -/
theorem scanDir_fold_none (parseIso : String → Option Nat) (now : Nat)
    (proj : FsPath) (cid : String) (entries : List TrackerCsDir) :
    ∀ s : ScanState, alistGet s.changesets cid = none →
      cid ∉ entries.filterMap (fun (d : TrackerCsDir) =>
        if d.isDir then
          match d.manifest with
          | FileRead.parsed m => some (m.changeset_id.getD d.name)
          | _ => none
        else none) →
      alistGet ((entries.foldl (scanEntry parseIso now proj) s)).changesets
        cid = none := by
  induction entries with
  | nil => intro s hs _; exact hs
  | cons d rest ih =>
    intro s hs hmem
    simp only [List.foldl_cons]
    apply ih
    · apply scanEntry_none _ _ _ _ _ _ hs
      rintro ⟨hdir, m, hmanif, he⟩
      apply hmem
      rw [List.filterMap_cons]
      rw [show (if d.isDir then
            match d.manifest with
            | FileRead.parsed m => some (m.changeset_id.getD d.name)
            | _ => none
          else none) = some cid from by simp [hdir, hmanif, he]]
      exact List.mem_cons_self cid _
    · intro hin
      apply hmem
      rw [List.filterMap_cons]
      cases hdd : (if d.isDir then
          match d.manifest with
          | FileRead.parsed m => some (m.changeset_id.getD d.name)
          | _ => none
        else none) with
      | none => exact hin
      | some x => exact List.mem_cons_of_mem x hin

/-- C1 (amended): scan() rebuilds the model from disk from scratch, so every
changeset id without a parsed on-disk manifest under the scanned projects —
in particular a changeset living only in memory — is absent from the model
after scan(); removal by scan is exactly disappearance from disk. -/
theorem scan_drops_memory_only_changesets (parseIso : String → Option Nat)
    (t : ChangesetTracker) (fs : TrackerFS) (now seed : Nat) (cid : String)
    (h : cid ∉ diskManifestIds fs t.project_paths) :
    alistGet (scan parseIso t fs now seed).changesets cid = none := by
  show alistGet (t.project_paths.foldl (scanProject parseIso now fs)
    { changesets := [], handoffs := [], seed := seed }).changesets cid = none
  have hgen : ∀ (projs : List FsPath) (s : ScanState),
      alistGet s.changesets cid = none →
      cid ∉ diskManifestIds fs projs →
      alistGet ((projs.foldl (scanProject parseIso now fs) s)).changesets
        cid = none := by
    intro projs
    induction projs with
    | nil => intro s hs _; exact hs
    | cons proj rest ih =>
      intro s hs hmem
      have hmem2 : cid ∉ diskManifestIds fs rest := by
        intro hin
        apply hmem
        unfold diskManifestIds at hin ⊢
        rw [List.map_cons, List.flatten_cons]
        exact List.mem_append_right _ hin
      simp only [List.foldl_cons]
      apply ih _ _ hmem2
      unfold scanProject
      cases hcs : trackerFsChangesets fs proj with
      | none => exact hs
      | some entries =>
        apply scanDir_fold_none _ _ _ _ _ _ hs
        intro hin
        apply hmem
        unfold diskManifestIds
        rw [List.map_cons, List.flatten_cons]
        apply List.mem_append_left
        rw [hcs]
        exact hin
  exact hgen t.project_paths _ rfl h

/-- C2 (amended): scan() is a function of the filesystem, the clock reading
and the uuid source alone — the prior in-memory state is cleared — so a
second scan() with no filesystem change, at the same clock reading and
with the same uuid source, reproduces the first scan's state exactly. -/
theorem scan_idempotent_fixed_clock (parseIso : String → Option Nat)
    (t : ChangesetTracker) (fs : TrackerFS) (now₁ seed₁ now₂ seed₂ : Nat) :
    scan parseIso (scan parseIso t fs now₁ seed₁) fs now₂ seed₂ =
      scan parseIso t fs now₂ seed₂ := rfl

end ChangesetTracker

/-- Tracker whose in-memory model holds a changeset with no on-disk
directory at all. -/
def w1t0 : ChangesetTracker :=
  { project_paths := []
    changesets := [("abc", { changeset_id := "abc", started_at := 0 })] }

/-- C1 counterexample: a changeset present only in memory is gone after
scan(), which clears the model and rebuilds it from disk. -/
theorem scan_removes_absent_changeset :
    (alistGet w1t0.changesets "abc").isSome ∧
    (ChangesetTracker.scan (fun _ => none) w1t0 [] 5 0).changesets = [] := by
  decide

/-- Witness for the amended C1 theorem on the same fixture. -/
theorem scan_drops_memory_only_changesets_witness :
    ("abc" ∉ ChangesetTracker.diskManifestIds [] w1t0.project_paths) ∧
    alistGet (ChangesetTracker.scan (fun _ => none) w1t0 [] 5
      0).changesets "abc" = none :=
  ⟨by decide,
    ChangesetTracker.scan_drops_memory_only_changesets (fun _ => none)
      w1t0 [] 5 0 "abc" (by decide)⟩

/-- Snapshot with one changeset directory carrying an empty manifest. -/
def w2fs : TrackerFS :=
  [{ path := ["p"],
     changesets := some [{ name := "c1",
                           manifest := FileRead.parsed {} }] }]

/-- Tracker scanning that one project. -/
def w2t0 : ChangesetTracker := { project_paths := [["p"]] }

/-- C2 counterexample: with the filesystem fixed, a second scan() at a later
clock reading re-creates the changeset with a new started_at, so the
in-memory states differ — started_at is stamped with now() at each scan and
never read from disk. -/
theorem scan_restamps_started_at :
    ((alistGet (ChangesetTracker.scan (fun _ => none) w2t0 w2fs 0
        0).changesets "c1").map (fun c => c.started_at) = some 0) ∧
    ((alistGet (ChangesetTracker.scan (fun _ => none)
        (ChangesetTracker.scan (fun _ => none) w2t0 w2fs 0 0) w2fs 1
        0).changesets "c1").map (fun c => c.started_at) = some 1) ∧
    ChangesetTracker.scan (fun _ => none)
        (ChangesetTracker.scan (fun _ => none) w2t0 w2fs 0 0) w2fs 1 0 ≠
      ChangesetTracker.scan (fun _ => none) w2t0 w2fs 0 0 := by
  decide

/-- Witness for the C7 theorem after one poll of the fixture. -/
theorem transcript_offsets_monotone_witness :
    (w7st.main_position ≤
      ([w7fs].foldl (fun s fs =>
        (TranscriptWatcher.pollWatch (fun _ => none) "c1" s fs).1)
        w7st).main_position) ∧
    (alistGet w7st.subagent_positions "a1" = some 3) ∧
    ∃ p', alistGet
      ([w7fs].foldl (fun s fs =>
        (TranscriptWatcher.pollWatch (fun _ => none) "c1" s fs).1)
        w7st).subagent_positions "a1" = some p' ∧ 3 ≤ p' :=
  ⟨(TranscriptWatcher.transcript_offsets_monotone (fun _ => none) "c1" w7st
      [w7fs]).1,
   rfl,
   (TranscriptWatcher.transcript_offsets_monotone (fun _ => none) "c1" w7st
      [w7fs]).2 "a1" 3 rfl⟩

end Marketplace
